import Mathlib

/-!
# Verification of the goecs entity-component-system core

This development is a shallow embedding, in Lean 4, of the goecs library
(the snapshot whose store lives in `view.go`, whose scheduler lives in
`system.go`, whose event bus lives in `listener.go`, whose sparse slice
lives in the `sparse` package, and whose world composition lives in
`world.go` of the `goecs` package with resources).

Modelling conventions, used throughout:

* Go `uint64` (the `EntityID` counter) is modelled as `Nat` with an
  explicit `% 2 ^ 64` at the increment; Go `int64` registration counters
  are modelled as `Int` with an explicit two's-complement wrap at the
  increment.  Go `int` fields that are only ever non-negative in the
  library (capacities, sizes, slot indices) are modelled as `Nat`.
* A Go `nil` entity pointer slot is `none`; an allocated entity is `some e`.
* `reflect.Type` / `ComponentType` is an opaque comparable handle, modelled
  as `Nat`; a component is a payload carrying its type handle; a signal is
  a payload carrying its type handle.
* Go maps (`map[EntityID]int`, `map[ComponentType]Component`) are modelled
  as association lists whose insert replaces the previous binding, which
  is extensionally the Go map semantics; absent keys yield the Go zero
  value where the code relies on it.
* `float32` deltas are passed through the scheduler and the event bus
  without any arithmetic, so they are modelled by an opaque `Int` token.
* Systems and listeners receive a `*World` pointer in Go.  Their effect on
  the world is modelled as a function from an abstract mutable state `σ`
  (the entity/resource data they read and write) to a new state, an
  optional user error, and the list of signals they raise through
  `World.Signal` during the invocation.  Re-registering systems or
  listeners from inside a running system or listener is outside the
  modelled effect surface; none of the verified claims involve it.
-/

/-- Two to the 64, the modulus of Go's `uint64` arithmetic. -/
def uint64Mod : Nat := 2 ^ 64

/-- Two to the 63: `int64` increments wrap from `2^63 - 1` to `-2^63`. -/
def int63 : Int := 2 ^ 63

/-- Go `int64` increment with two's-complement wrap-around. -/
def i64succ (x : Int) : Int :=
  if x + 1 < int63 then x + 1 else -int63

/-- A component type handle: `goecs.ComponentType`, an opaque comparable
identity minted once per component kind (`NewComponentType`). -/
abbrev CompType := Nat

/-- A component: carries its `ComponentType` (the Go `Component` interface
demands a `Type() ComponentType` method) and an opaque payload. -/
structure Component where
  ctype : CompType
  val : Int
  deriving DecidableEq, Repr

/-- `entity.go`: an `Entity` is an id plus a `map[ComponentType]Component`,
modelled as an association list keyed by the component type. -/
structure Entity where
  id : Nat
  components : List (CompType × Component)
  deriving DecidableEq, Repr

namespace Entity

/-- `Entity.Add`: `ent.components[component.Type()] = component` — a Go map
assignment, which replaces any previous binding of the same key. -/
def addC (ent : Entity) (c : Component) : Entity :=
  { ent with components :=
      (c.ctype, c) :: ent.components.filter (fun p => p.1 != c.ctype) }

/-- `NewEntity(ID, components...)`: fresh empty map, then `Add` each. -/
def mkEntity (id : Nat) (data : List Component) : Entity :=
  data.foldl addC { id := id, components := [] }

/-- `Entity.Clear`: empty component map and id zero. -/
def clearE : Entity := { id := 0, components := [] }

/-- `Entity.IsEmpty`: `len(ent.components) == 0`. -/
def isEmptyE (ent : Entity) : Bool := ent.components.isEmpty

/-- `Entity.Contains(types...)`: every requested type is a key of the map. -/
def containsTypes (ent : Entity) (types : List CompType) : Bool :=
  types.all (fun t => ent.components.any (fun p => p.1 == t))

/-- `Entity.Reuse(id, components...)`: `Clear`, set the id, `Add` each
component.  Its result coincides with `NewEntity id components`; the Go
code only differs in reusing the allocation. -/
def reuseE (id : Nat) (data : List Component) : Entity :=
  mkEntity id data

theorem containsTypes_nil (ent : Entity) : ent.containsTypes [] = true := rfl

end Entity

/-- Association-list update with Go map semantics: the new binding replaces
any previous binding of the key. -/
def mapInsert (l : List (Nat × Nat)) (k v : Nat) : List (Nat × Nat) :=
  (k, v) :: l.filter (fun p => p.1 != k)

/-- Association-list read with Go map semantics: a missing key yields the
zero value `0` (as `v.lookup[id]` does for an absent `EntityID`). -/
def mapGetD (l : List (Nat × Nat)) (k : Nat) : Nat :=
  ((l.find? (fun p => p.1 == k)).map Prod.snd).getD 0

/-- `view.go`: the `View` store.  `items` is the growable slot array
(`[]*Entity`), `lookup` the `map[EntityID]int` id-to-slot map. -/
structure View where
  capacity : Nat
  grow : Nat
  items : List (Option Entity)
  size : Nat
  lastID : Nat
  lookup : List (Nat × Nat)
  deriving DecidableEq, Repr

namespace View

/-- `NewView(capacity)`: `capacity` nil slots, `grow` equal to the capacity
so that the first growth doubles it, empty lookup. -/
def newView (c : Nat) : View :=
  { capacity := c, grow := c, items := List.replicate c none,
    size := 0, lastID := 0, lookup := [] }

/-- The slot scan of `AddEntity`: index of the first slot that is either a
nil pointer or holds a tombstone (`IsEmpty`) entity, if any. -/
def freeSlot (items : List (Option Entity)) : Option Nat :=
  items.findIdx? (fun o =>
    match o with
    | none => true
    | some e => e.isEmptyE)

/-- `View.growCapacity`: capacity grows by `grow`, the item array is
extended with nil slots, and the next increment becomes
`(capacity >> 2) + 1` computed from the new capacity. -/
def growCapacity (v : View) : View :=
  let cap := v.capacity + v.grow
  { v with capacity := cap,
           items := v.items ++ List.replicate v.grow none,
           grow := cap / 4 + 1 }

/-- `View.AddEntity(data...)`: increment `lastID` (a `uint64`), reuse the
first nil or tombstone slot if one exists, otherwise grow and write the
new entity at index `size`.  In every branch the lookup maps the new id to
the written slot and the new id is returned.  The Go tombstone branch
calls `Reuse`, the nil branch `NewEntity`; both produce the same entity
value, so a single write is used here.

Divergence note: when `size` exceeds the slot-array length — reachable in
Go only by calling `AddEntity` with an empty component list, which mints
an occupied-yet-`IsEmpty` slot and inflates `size` — the Go write
`v.items[v.size]` panics with an index-out-of-range; the model's
`List.set` silently drops that write.  No verified claim depends on that
slot write. -/
def addEntity (v : View) (data : List Component) : View × Nat :=
  let newID := (v.lastID + 1) % uint64Mod
  match freeSlot v.items with
  | some i =>
      ({ v with items := v.items.set i (some (Entity.mkEntity newID data)),
                size := v.size + 1,
                lookup := mapInsert v.lookup newID i,
                lastID := newID }, newID)
  | none =>
      let g := v.growCapacity
      ({ g with items := g.items.set v.size (some (Entity.mkEntity newID data)),
                lookup := mapInsert v.lookup newID v.size,
                size := v.size + 1,
                lastID := newID }, newID)

/-- `View.find(id)`: linear scan for the slot holding a non-tombstone
entity with this id. -/
def findSlot (v : View) (id : Nat) : Option Nat :=
  v.items.findIdx? (fun o =>
    match o with
    | none => false
    | some e => !e.isEmptyE && e.id == id)

/-- `View.Remove(id)`: on success clear the found entity in place (turn it
into a tombstone) and decrement `size`; otherwise report
`ErrEntityNotFound`.  The Boolean is `true` exactly when the Go call
returns the error. -/
def removeE (v : View) (id : Nat) : View × Bool :=
  match findSlot v id with
  | some i => ({ v with items := v.items.set i (some Entity.clearE),
                        size := v.size - 1 }, false)
  | none => (v, true)

/-- `View.Get(id)`: `v.items[v.lookup[id]]` — no error path; an id absent
from the lookup map reads slot `0` through the map's zero value. -/
def get (v : View) (id : Nat) : Option Entity :=
  v.items.getD (mapGetD v.lookup id) none

/-- `View.Clear`: clear every non-nil slot in place (each becomes a
tombstone entity) and zero the size.  The Go loop runs over `i <
capacity`; the library maintains `capacity = len(items)`, under which the
loop covers the whole array as the model does. -/
def clearV (v : View) : View :=
  { v with items := v.items.map (fun o => o.map (fun _ => Entity.clearE)),
           size := 0 }

/-- The Go comparator handed to `sort.Slice` by `View.Sort`: nil and
tombstone slots order after every occupied slot, occupied slots by the
caller's `less`. -/
def occupied (o : Option Entity) : Bool :=
  match o with
  | none => false
  | some e => !e.isEmptyE

/-- `View.Sort(less)`: `sort.Slice` reorders the slot array so that it is
sorted under the lifted comparator (nil and tombstone slots after every
occupied slot, occupied slots by the caller's `less`).  The model realises
the reordering as the occupied entities sorted under the complement
relation of `less` followed by the remaining slots: every arrangement
`sort.Slice` may produce agrees with this one whenever `less` is a strict
weak order with singleton equivalence classes, and the relative order of
the indistinguishable trailing slots is unobservable. -/
def sortV (v : View) (less : Entity → Entity → Bool) : View :=
  { v with items :=
      (((v.items.filterMap id).filter (fun e => !e.isEmptyE)).insertionSort
          (fun a b => less b a = false)).map some
        ++ v.items.filter (fun o => !occupied o) }

end View

/-- A mutating store call: the surface through which a client drives a
`View` (`AddEntity`, `Remove`, `Clear`, `Sort`). -/
inductive ViewOp where
  | addE (data : List Component)
  | removeOp (id : Nat)
  | clearOp
  | sortOp (less : Entity → Entity → Bool)

/-- The state transition of one mutating store call. -/
def applyOp (v : View) : ViewOp → View
  | .addE data => (v.addEntity data).1
  | .removeOp id => (v.removeE id).1
  | .clearOp => v.clearV
  | .sortOp less => v.sortV less

/-- Run a sequence of store calls, collecting the `EntityID`s returned by
the `AddEntity` calls in order. -/
def runView : View → List ViewOp → View × List Nat
  | v, [] => (v, [])
  | v, ViewOp.addE data :: ops =>
      let r := v.addEntity data
      let rest := runView r.1 ops
      (rest.1, r.2 :: rest.2)
  | v, op :: ops => runView (applyOp v op) ops

/-- Number of `AddEntity` calls in a call sequence. -/
def countAdds : List ViewOp → Nat
  | [] => 0
  | ViewOp.addE _ :: ops => countAdds ops + 1
  | _ :: ops => countAdds ops

namespace View

theorem addEntity_lastID (v : View) (data : List Component) :
    (v.addEntity data).1.lastID = (v.lastID + 1) % uint64Mod ∧
      (v.addEntity data).2 = (v.lastID + 1) % uint64Mod := by
  cases h : freeSlot v.items <;> simp [addEntity, h]

theorem removeE_lastID (v : View) (id : Nat) :
    (v.removeE id).1.lastID = v.lastID := by
  cases h : findSlot v id <;> simp [removeE, h]

theorem clearV_lastID (v : View) : v.clearV.lastID = v.lastID := rfl

theorem sortV_lastID (v : View) (less : Entity → Entity → Bool) :
    (v.sortV less).lastID = v.lastID := rfl

end View

theorem runView_ids (ops : List ViewOp) :
    ∀ v : View, v.lastID + countAdds ops < uint64Mod →
      (runView v ops).2 = List.range' (v.lastID + 1) (countAdds ops) ∧
        (runView v ops).1.lastID = v.lastID + countAdds ops := by
  induction ops with
  | nil => intro v _; simp [runView, countAdds]
  | cons op ops ih =>
      intro v h
      cases op with
      | addE data =>
          have hlt : v.lastID + 1 < uint64Mod := by
            have := h; simp [countAdds] at this; omega
          have hmod : (v.lastID + 1) % uint64Mod = v.lastID + 1 :=
            Nat.mod_eq_of_lt hlt
          have hid := (View.addEntity_lastID v data).1
          have hr := (View.addEntity_lastID v data).2
          have hrec := ih (v.addEntity data).1
            (by rw [hid, hmod]; simp [countAdds] at h ⊢; omega)
          simp only [runView, countAdds]
          rw [hid, hmod] at hrec
          refine ⟨?_, ?_⟩
          · rw [hrec.1, hr, hmod, List.range'_succ]
          · rw [hrec.2]; omega
      | removeOp id =>
          have hrec := ih (applyOp v (ViewOp.removeOp id))
            (by simpa [applyOp, View.removeE_lastID, countAdds] using h)
          simpa [runView, countAdds, applyOp, View.removeE_lastID] using hrec
      | clearOp =>
          have hrec := ih (applyOp v ViewOp.clearOp)
            (by simpa [applyOp, View.clearV_lastID, countAdds] using h)
          simpa [runView, countAdds, applyOp, View.clearV_lastID] using hrec
      | sortOp less =>
          have hrec := ih (applyOp v (ViewOp.sortOp less))
            (by simpa [applyOp, View.sortV_lastID, countAdds] using h)
          simpa [runView, countAdds, applyOp, View.sortV_lastID] using hrec

theorem pairwise_lt_range1 : ∀ (n a : Nat), (List.range' a n).Pairwise (· < ·) := by
  intro n
  induction n with
  | zero => intro a; simp
  | succ n ih =>
      intro a
      rw [List.range'_succ]
      refine List.Pairwise.cons ?_ (ih (a + 1))
      intro b hb
      have := (List.mem_range'_1.mp hb).1
      omega

/-- C1.  For every sequence of store calls (`AddEntity` with `Remove`,
`Clear`, `Sort` interleaved arbitrarily) issued against a fresh view, as
long as the `uint64` id counter does not wrap (fewer than `2^64`
additions), the `EntityID`s returned by `AddEntity` are strictly
increasing and no id is ever returned twice — even when an `AddEntity`
reuses a tombstoned slot. -/
theorem claim1_entity_ids_strictly_increasing (c : Nat) (ops : List ViewOp)
    (h : countAdds ops < uint64Mod) :
    (runView (View.newView c) ops).2.Pairwise (· < ·) ∧
      (runView (View.newView c) ops).2.Nodup := by
  have hids := (runView_ids ops (View.newView c)
    (by simp [View.newView]; omega)).1
  rw [hids]
  refine ⟨pairwise_lt_range1 _ _, ?_⟩
  exact (pairwise_lt_range1 _ _).imp (fun h => Nat.ne_of_lt h)

/-- Witness for C1: a concrete add / remove / add-reusing-the-slot trace
returns the ids 1 and 2, strictly increasing and distinct. -/
theorem claim1_entity_ids_strictly_increasing_witness :
    (runView (View.newView 1)
        [ViewOp.addE [⟨5, 0⟩], ViewOp.removeOp 1, ViewOp.addE [⟨6, 0⟩]]).2.Pairwise
        (· < ·) ∧
      (runView (View.newView 1)
        [ViewOp.addE [⟨5, 0⟩], ViewOp.removeOp 1, ViewOp.addE [⟨6, 0⟩]]).2.Nodup :=
  claim1_entity_ids_strictly_increasing 1
    [ViewOp.addE [⟨5, 0⟩], ViewOp.removeOp 1, ViewOp.addE [⟨6, 0⟩]] (by decide)

/-- The capacity/grow bookkeeping invariant of a view created with
capacity `c`: before the first growth the pending increment equals the
initial capacity (so the first growth doubles it); afterwards it is a
quarter of the current capacity plus one. -/
def growInv (c : Nat) (v : View) : Prop :=
  (v.capacity = c ∧ v.grow = c) ∨ (c < v.capacity ∧ v.grow = v.capacity / 4 + 1)

theorem occupied_iff_not_free (o : Option Entity) :
    View.occupied o = !(match o with
      | none => true
      | some e => e.isEmptyE) := by
  cases o with
  | none => rfl
  | some e => simp [View.occupied]

theorem freeSlot_eq_none_iff (items : List (Option Entity)) :
    View.freeSlot items = none ↔ items.all View.occupied = true := by
  rw [View.freeSlot, List.findIdx?_eq_none_iff, List.all_eq_true]
  constructor
  · intro h o ho
    have := h o ho
    rw [occupied_iff_not_free]
    simp [this]
  · intro h o ho
    have := h o ho
    rw [occupied_iff_not_free] at this
    simpa using this

theorem addEntity_capacity_full (v : View) (data : List Component)
    (h : v.items.all View.occupied = true) :
    (v.addEntity data).1.capacity = v.capacity + v.grow := by
  have hf : View.freeSlot v.items = none := (freeSlot_eq_none_iff v.items).mpr h
  simp [View.addEntity, hf, View.growCapacity]

theorem addEntity_capacity_notfull (v : View) (data : List Component)
    (h : ¬ v.items.all View.occupied = true) :
    (v.addEntity data).1.capacity = v.capacity := by
  cases hf : View.freeSlot v.items with
  | none => exact absurd ((freeSlot_eq_none_iff v.items).mp hf) h
  | some i => simp [View.addEntity, hf]

theorem applyOp_capacity_mono (v : View) (op : ViewOp) :
    v.capacity ≤ (applyOp v op).capacity := by
  cases op with
  | addE data =>
      simp only [applyOp]
      cases hf : View.freeSlot v.items with
      | none => simp [View.addEntity, hf, View.growCapacity]
      | some i => simp [View.addEntity, hf]
  | removeOp id =>
      simp only [applyOp]
      cases hf : View.findSlot v id <;> simp [View.removeE, hf]
  | clearOp => exact Nat.le_refl _
  | sortOp less => exact Nat.le_refl _

theorem growInv_applyOp (c : Nat) (v : View) (op : ViewOp) (hc : 1 ≤ c)
    (h : growInv c v) : growInv c (applyOp v op) := by
  cases op with
  | addE data =>
      simp only [applyOp]
      cases hf : View.freeSlot v.items with
      | some i => simpa [View.addEntity, hf] using h
      | none =>
          simp only [View.addEntity, hf, View.growCapacity]
          rcases h with ⟨h1, h2⟩ | ⟨h1, h2⟩
          · right; constructor
            · simp [h1, h2]; omega
            · simp [h1, h2]
          · right; constructor
            · simp; omega
            · simp [h2]
  | removeOp id =>
      simp only [applyOp]
      cases hf : View.findSlot v id <;> simpa [View.removeE, hf] using h
  | clearOp => simpa [applyOp, View.clearV, growInv] using h
  | sortOp less => simpa [applyOp, View.sortV, growInv] using h

theorem runView_growInv (c : Nat) (ops : List ViewOp) (hc : 1 ≤ c) :
    ∀ v : View, growInv c v → growInv c (runView v ops).1 := by
  induction ops with
  | nil => intro v h; simpa [runView] using h
  | cons op ops ih =>
      intro v h
      cases op with
      | addE data =>
          exact ih _ (growInv_applyOp c v (ViewOp.addE data) hc h)
      | removeOp id => exact ih _ (growInv_applyOp c v (ViewOp.removeOp id) hc h)
      | clearOp => exact ih _ (growInv_applyOp c v ViewOp.clearOp hc h)
      | sortOp less => exact ih _ (growInv_applyOp c v (ViewOp.sortOp less) hc h)

/-- C5.  For a view created with capacity `c ≥ 1` and driven by any
sequence of store calls: capacity never decreases under any further call;
`AddEntity` grows the store exactly when every slot is occupied (the
`(c+1)`-th simultaneous occupant is needed), in which case capacity grows
by the pending increment; while the store is at its initial capacity the
pending increment is `c` (the first growth yields exactly `2c`), and once
it has grown the pending increment is `capacity / 4 + 1` (each subsequent
growth adds a quarter of the current capacity plus one, in integer
arithmetic). -/
theorem claim5_capacity_growth_contract (c : Nat) (ops : List ViewOp)
    (op : ViewOp) (data : List Component) (hc : 1 ≤ c) :
    (runView (View.newView c) ops).1.capacity ≤
        (applyOp (runView (View.newView c) ops).1 op).capacity ∧
      ((runView (View.newView c) ops).1.items.all View.occupied = true →
        ((runView (View.newView c) ops).1.addEntity data).1.capacity =
          (runView (View.newView c) ops).1.capacity +
            (runView (View.newView c) ops).1.grow) ∧
      (¬ (runView (View.newView c) ops).1.items.all View.occupied = true →
        ((runView (View.newView c) ops).1.addEntity data).1.capacity =
          (runView (View.newView c) ops).1.capacity) ∧
      ((runView (View.newView c) ops).1.capacity = c →
        (runView (View.newView c) ops).1.grow = c) ∧
      (c < (runView (View.newView c) ops).1.capacity →
        (runView (View.newView c) ops).1.grow =
          (runView (View.newView c) ops).1.capacity / 4 + 1) := by
  have hinv : growInv c (runView (View.newView c) ops).1 :=
    runView_growInv c ops hc (View.newView c) (Or.inl ⟨rfl, rfl⟩)
  refine ⟨applyOp_capacity_mono _ op, ?_, ?_, ?_, ?_⟩
  · exact fun h => addEntity_capacity_full _ data h
  · exact fun h => addEntity_capacity_notfull _ data h
  · intro h
    rcases hinv with ⟨_, h2⟩ | ⟨h1, _⟩
    · exact h2
    · omega
  · intro h
    rcases hinv with ⟨h1, _⟩ | ⟨_, h2⟩
    · omega
    · exact h2

/-- Witness for C5: with capacity 1, after one add the store is full; the
second add grows it to exactly 2, and the recorded next increment is
`2 / 4 + 1 = 1`. -/
theorem claim5_capacity_growth_contract_witness :
    (runView (View.newView 1) [ViewOp.addE [⟨5, 0⟩]]).1.capacity ≤
        (applyOp (runView (View.newView 1) [ViewOp.addE [⟨5, 0⟩]]).1
          (ViewOp.addE [⟨6, 0⟩])).capacity ∧
      ((runView (View.newView 1) [ViewOp.addE [⟨5, 0⟩]]).1.items.all
            View.occupied = true →
        ((runView (View.newView 1) [ViewOp.addE [⟨5, 0⟩]]).1.addEntity
              [⟨6, 0⟩]).1.capacity =
          (runView (View.newView 1) [ViewOp.addE [⟨5, 0⟩]]).1.capacity +
            (runView (View.newView 1) [ViewOp.addE [⟨5, 0⟩]]).1.grow) ∧
      (¬ (runView (View.newView 1) [ViewOp.addE [⟨5, 0⟩]]).1.items.all
            View.occupied = true →
        ((runView (View.newView 1) [ViewOp.addE [⟨5, 0⟩]]).1.addEntity
              [⟨6, 0⟩]).1.capacity =
          (runView (View.newView 1) [ViewOp.addE [⟨5, 0⟩]]).1.capacity) ∧
      ((runView (View.newView 1) [ViewOp.addE [⟨5, 0⟩]]).1.capacity = 1 →
        (runView (View.newView 1) [ViewOp.addE [⟨5, 0⟩]]).1.grow = 1) ∧
      (1 < (runView (View.newView 1) [ViewOp.addE [⟨5, 0⟩]]).1.capacity →
        (runView (View.newView 1) [ViewOp.addE [⟨5, 0⟩]]).1.grow =
          (runView (View.newView 1) [ViewOp.addE [⟨5, 0⟩]]).1.capacity / 4 + 1) :=
  claim5_capacity_growth_contract 1 [ViewOp.addE [⟨5, 0⟩]]
    (ViewOp.addE [⟨6, 0⟩]) [⟨6, 0⟩] (by decide)

theorem findIdx?_lt_length {α : Type} {p : α → Bool} {l : List α} {i : Nat}
    (h : l.findIdx? p = some i) : i < l.length :=
  (List.findIdx?_eq_some_iff_findIdx_eq.mp h).1

theorem mapGetD_mapInsert (l : List (Nat × Nat)) (k v : Nat) :
    mapGetD (mapInsert l k v) k = v := by
  simp [mapGetD, mapInsert, List.find?]

/-- The slot index at which the next `AddEntity` writes: the first free
slot if one exists, otherwise (after growing) the current `size`. -/
def addIndex (v : View) : Nat :=
  (View.freeSlot v.items).getD v.size

/-- Counterexample to C7.  Add an entity (id 1) to a fresh view, remove
it, and add another (id 2), which reuses the tombstoned slot.  `Get 1` —
the id is removed — does not fail with `EntityNotFound`: it returns the
entity with id 2 occupying the reused slot, because the code has no error
path and the stale lookup entry for id 1 still points at slot 0. -/
theorem claim7_get_counterexample :
    (((runView (View.newView 1)
          [ViewOp.addE [⟨5, 0⟩], ViewOp.removeOp 1,
            ViewOp.addE [⟨6, 0⟩]]).1.get 1).map Entity.id) = some 2 := by decide

/-- C7 amended.  `Get` has no error path: it returns the slot content at
index `lookup[id]` (slot 0 via the map zero value when the id was never
issued, a stale slot when the id was removed).  For the id just returned
by `AddEntity` it does return exactly the new entity.  The hypotheses
exclude the one state degenerate for the Go code itself (`size` beyond the
array length, where the Go write panics). -/
theorem claim7_get_of_just_added (v : View) (data : List Component)
    (h1 : v.size ≤ v.items.length) (h2 : 1 ≤ v.grow) :
    (v.addEntity data).1.get (v.addEntity data).2 =
      some (Entity.mkEntity (v.addEntity data).2 data) := by
  cases hf : View.freeSlot v.items with
  | some i =>
      have hi : i < v.items.length := findIdx?_lt_length hf
      simp only [View.addEntity, hf, View.get]
      rw [mapGetD_mapInsert]
      show (v.items.set i _).getD i none = _
      rw [List.getD_eq_getElem?_getD, List.getElem?_set_self (by simpa using hi)]
      rfl
  | none =>
      simp only [View.addEntity, hf, View.get, View.growCapacity]
      rw [mapGetD_mapInsert]
      show ((v.items ++ List.replicate v.grow none).set v.size _).getD v.size none = _
      rw [List.getD_eq_getElem?_getD, List.getElem?_set_self (by simp; omega)]
      rfl

/-- Witness for the amended C7 on a fresh view with capacity 1. -/
theorem claim7_get_of_just_added_witness :
    ((View.newView 1).addEntity [⟨5, 0⟩]).1.get
        ((View.newView 1).addEntity [⟨5, 0⟩]).2 =
      some (Entity.mkEntity ((View.newView 1).addEntity [⟨5, 0⟩]).2 [⟨5, 0⟩]) :=
  claim7_get_of_just_added (View.newView 1) [⟨5, 0⟩] (by decide) (by decide)

/-- Counterexample to C8.  After add (id 1) then remove, the slot is a
tombstone and the id is retired, yet the lookup map still carries the
binding `1 ↦ 0`: `Remove` performs no lookup maintenance. -/
theorem claim8_lookup_counterexample :
    ((runView (View.newView 1)
          [ViewOp.addE [⟨5, 0⟩], ViewOp.removeOp 1]).1.lookup.find?
        (fun p => p.1 == 1)).isSome = true ∧
      (runView (View.newView 1)
          [ViewOp.addE [⟨5, 0⟩], ViewOp.removeOp 1]).1.items.getD 0 none =
        some Entity.clearE := by decide

/-- C8 amended.  Only `AddEntity` touches the id-to-slot lookup, mapping
the freshly returned id to the slot it wrote; `Remove`, `Sort` and `Clear`
leave the lookup untouched, so retired ids stay mapped and a `Sort`
leaves the recorded slot indices stale. -/
theorem claim8_lookup_only_add_updates (v : View) (id : Nat)
    (less : Entity → Entity → Bool) (data : List Component) :
    (v.removeE id).1.lookup = v.lookup ∧
      v.clearV.lookup = v.lookup ∧
      (v.sortV less).lookup = v.lookup ∧
      (v.addEntity data).1.lookup =
        mapInsert v.lookup (v.addEntity data).2 (addIndex v) := by
  refine ⟨?_, rfl, rfl, ?_⟩
  · cases hf : View.findSlot v id <;> simp [View.removeE, hf]
  · cases hf : View.freeSlot v.items <;> simp [View.addEntity, hf, addIndex]

/-- The slot test of `Iterator.Next` / `first`: the slot is non-nil, the
entity is not a tombstone, and it contains every filtered type. -/
def entPass (ts : List CompType) (o : Option Entity) : Bool :=
  match o with
  | none => false
  | some e => !e.isEmptyE && e.containsTypes ts

/-- The cursor scan of the Go iterator: the first index at or after
`start` whose slot passes the filter (the loop
`for i := current + 1; i < len(items); i++`). -/
def findFromAux (ts : List CompType) : List (Option Entity) → Nat → Option Nat
  | [], _ => none
  | o :: rest, 0 =>
      if entPass ts o then some 0 else (findFromAux ts rest 0).map (· + 1)
  | _ :: rest, s + 1 => (findFromAux ts rest s).map (· + 1)

/-- `view.go`'s `Iterator` value: the view's slot array it is bound to, a
cursor, and the component-type filter. -/
structure Iter where
  dataItems : List (Option Entity)
  current : Nat
  filter : List CompType

/-- `Iterator.Next`: scan from `current + 1` for the next passing slot;
`nil` when the scan falls off the array. -/
def Iter.nextI (it : Iter) : Option Iter :=
  match findFromAux it.filter it.dataItems (it.current + 1) with
  | some j => some { it with current := j }
  | none => none

/-- `Iterator.Value`: the slot under the cursor. -/
def Iter.valueI (it : Iter) : Option Entity :=
  it.dataItems.getD it.current none

/-- Packaging of an optional cursor position into an optional iterator. -/
def iterCursor (ts : List CompType) (l : List (Option Entity))
    (oi : Option Nat) : Option Iter :=
  oi.map (fun i => { dataItems := l, current := i, filter := ts })

/-- `View.Iterator(types...)`: start at cursor `-1` and scan forward
(`first`); `nil` when nothing passes. -/
def View.iteratorV (v : View) (ts : List CompType) : Option Iter :=
  iterCursor ts v.items (findFromAux ts v.items 0)

/-- The entity sequence an iterator yields under the client loop
`for it := ...; it != nil; it = it.Next()`, reading `it.Value()` each
time.  The fuel bounds the number of emissions; the cursor strictly
increases and stays below the array length, so `length items` fuel is
always enough. -/
def emitIter : Nat → Option Iter → List Entity
  | _, none => []
  | 0, some _ => []
  | fuel + 1, some it =>
      (match it.valueI with
       | some e => [e]
       | none => []) ++
        emitIter fuel it.nextI

/-- The full sequence of entities yielded by `View.Iterator(types...)`. -/
def iterateView (v : View) (ts : List CompType) : List Entity :=
  emitIter v.items.length (v.iteratorV ts)

theorem findFromAux_cons_succ (ts : List CompType) (o : Option Entity)
    (l : List (Option Entity)) (s : Nat) :
    findFromAux ts (o :: l) (s + 1) = (findFromAux ts l s).map (· + 1) := rfl

theorem findFromAux_none_of_ge (ts : List CompType) :
    ∀ (l : List (Option Entity)) (s : Nat), l.length ≤ s →
      findFromAux ts l s = none := by
  intro l
  induction l with
  | nil => intro s _; rfl
  | cons o rest ih =>
      intro s hs
      cases s with
      | zero => simp at hs
      | succ s =>
          rw [findFromAux_cons_succ, ih s (by simpa using hs)]
          rfl

theorem spec_nil_of_find_none (ts : List CompType) :
    ∀ (l : List (Option Entity)) (s : Nat), findFromAux ts l s = none →
      ((l.drop s).filterMap id).filter
          (fun e => !e.isEmptyE && e.containsTypes ts) = [] := by
  intro l
  induction l with
  | nil => intro s _; simp
  | cons o rest ih =>
      intro s hnone
      cases s with
      | zero =>
          rw [findFromAux] at hnone
          by_cases hp : entPass ts o
          · simp [hp] at hnone
          · simp [hp] at hnone
            have hrest := ih 0 hnone
            simp only [List.drop_zero] at hrest ⊢
            cases o with
            | none => simpa using hrest
            | some e =>
                have hpe : (!e.isEmptyE && e.containsTypes ts) = false := by
                  simpa [entPass] using hp
                simpa [hpe] using hrest
      | succ s =>
          rw [findFromAux_cons_succ] at hnone
          simp only [Option.map_eq_none'] at hnone
          simpa using ih s hnone

theorem spec_cons_of_find_some (ts : List CompType) :
    ∀ (l : List (Option Entity)) (s i : Nat), findFromAux ts l s = some i →
      ∃ e, l.getD i none = some e ∧ (!e.isEmptyE && e.containsTypes ts) = true ∧
        ((l.drop s).filterMap id).filter
            (fun x => !x.isEmptyE && x.containsTypes ts) =
          e :: ((l.drop (i + 1)).filterMap id).filter
            (fun x => !x.isEmptyE && x.containsTypes ts) := by
  intro l
  induction l with
  | nil => intro s i h; simp [findFromAux] at h
  | cons o rest ih =>
      intro s i h
      cases s with
      | zero =>
          rw [findFromAux] at h
          by_cases hp : entPass ts o
          · simp [hp] at h
            cases o with
            | none => simp [entPass] at hp
            | some e =>
                refine ⟨e, ?_, ?_, ?_⟩
                · rw [← h]; rfl
                · simpa [entPass] using hp
                · have hpe : (!e.isEmptyE && e.containsTypes ts) = true := by
                    simpa [entPass] using hp
                  simp only [List.drop_zero]
                  rw [← h]
                  simp [hpe]
          · simp [hp] at h
            rcases h with ⟨j, hj, hji⟩
            rcases ih 0 j hj with ⟨e, he1, he2, he3⟩
            refine ⟨e, ?_, he2, ?_⟩
            · rw [← hji]; simpa using he1
            · rw [← hji]
              simp only [List.drop_zero] at he3 ⊢
              have hdrop : (o :: rest).drop (j + 1 + 1) = rest.drop (j + 1) := rfl
              rw [hdrop]
              cases o with
              | none => simpa using he3
              | some x =>
                  have hpe : (!x.isEmptyE && x.containsTypes ts) = false := by
                    simpa [entPass] using hp
                  simpa [hpe] using he3
      | succ s =>
          rw [findFromAux_cons_succ] at h
          simp only [Option.map_eq_some'] at h
          rcases h with ⟨j, hj, hji⟩
          rcases ih s j hj with ⟨e, he1, he2, he3⟩
          refine ⟨e, ?_, he2, ?_⟩
          · rw [← hji]; simpa using he1
          · rw [← hji]
            have hd1 : (o :: rest).drop (s + 1) = rest.drop s := rfl
            have hd2 : (o :: rest).drop (j + 1 + 1) = rest.drop (j + 1) := rfl
            rw [hd1, hd2]
            exact he3

theorem findFromAux_le (ts : List CompType) :
    ∀ (l : List (Option Entity)) (s i : Nat), findFromAux ts l s = some i →
      s ≤ i ∧ i < l.length := by
  intro l
  induction l with
  | nil => intro s i h; simp [findFromAux] at h
  | cons o rest ih =>
      intro s i h
      cases s with
      | zero =>
          rw [findFromAux] at h
          by_cases hp : entPass ts o
          · simp [hp] at h
            simp only [List.length_cons]
            omega
          · simp [hp] at h
            rcases h with ⟨j, hj, hji⟩
            have := ih 0 j hj
            simp only [List.length_cons]
            omega
      | succ s =>
          rw [findFromAux_cons_succ] at h
          simp only [Option.map_eq_some'] at h
          rcases h with ⟨j, hj, hji⟩
          have := ih s j hj
          simp only [List.length_cons]
          omega

theorem emitIter_spec (ts : List CompType) (l : List (Option Entity)) :
    ∀ (fuel s : Nat), l.length - s ≤ fuel →
      emitIter fuel (iterCursor ts l (findFromAux ts l s)) =
        ((l.drop s).filterMap id).filter
          (fun e => !e.isEmptyE && e.containsTypes ts) := by
  intro fuel
  induction fuel with
  | zero =>
      intro s hs
      have hlen : l.length ≤ s := by omega
      rw [findFromAux_none_of_ge ts l s hlen]
      rw [List.drop_eq_nil_of_le hlen]
      rfl
  | succ fuel ih =>
      intro s hs
      cases hfind : findFromAux ts l s with
      | none =>
          rw [spec_nil_of_find_none ts l s hfind]
          rfl
      | some i =>
          rcases spec_cons_of_find_some ts l s i hfind with ⟨e, he1, he2, he3⟩
          have hbounds := findFromAux_le ts l s i hfind
          rw [he3]
          show emitIter (fuel + 1)
              (some { dataItems := l, current := i, filter := ts }) = _
          rw [emitIter]
          have hnext : Iter.nextI { dataItems := l, current := i, filter := ts } =
              iterCursor ts l (findFromAux ts l (i + 1)) := by
            rw [Iter.nextI]
            cases findFromAux ts l (i + 1) <;> rfl
          rw [hnext]
          have hval : Iter.valueI { dataItems := l, current := i, filter := ts } =
              some e := he1
          rw [hval]
          rw [ih (i + 1) (by omega)]
          rfl

/-- C6.  `Iterator(T1 .. Tn)` yields exactly the entities whose component
set contains every requested type, in ascending slot order, skipping nil
and tombstone slots; with no filter it yields every non-tombstone entity.
The sequence is a finite list — the totality of `emitIter` under
`length items` fuel, with a strictly advancing cursor, is the formal
counterpart of "`Next` eventually returns nil". -/
theorem claim6_iterator_filter_correct (v : View) (ts : List CompType) :
    iterateView v ts =
        (v.items.filterMap id).filter
          (fun e => !e.isEmptyE && e.containsTypes ts) ∧
      iterateView v [] = (v.items.filterMap id).filter (fun e => !e.isEmptyE) := by
  constructor
  · have := emitIter_spec ts v.items v.items.length 0 (by omega)
    simpa [iterateView, View.iteratorV] using this
  · have := emitIter_spec [] v.items v.items.length 0 (by omega)
    simp only [iterateView, View.iteratorV]
    rw [this]
    simp [Entity.containsTypes]

/-- The `sparse.Slice` of the `sparse` package: a growable array of
slots, each either free (`none`, Go `valid == false`) or holding a value.
`NewSlice(capacity)` sets `grow` to the capacity so the first growth
doubles it. -/
structure Sparse (α : Type) where
  capacity : Nat
  grow : Nat
  items : List (Option α)
  size : Nat

namespace Sparse

/-- `sparse.NewSlice(capacity)`. -/
def newSlice (α : Type) (c : Nat) : Sparse α :=
  { capacity := c, grow := c, items := List.replicate c none, size := 0 }

/-- The values held in the occupied slots, in slot order — exactly the
sequence visited by `sparse.Iterator` (`Next` skips invalid slots in
ascending index order). -/
def valids (ss : Sparse α) : List α :=
  ss.items.filterMap id

/-- `slice.growCapacity`: capacity grows by `grow`, free slots are
appended, and the next increment becomes `(capacity >> 2) + 1` from the
new capacity. -/
def growCap (ss : Sparse α) : Sparse α :=
  let cap := ss.capacity + ss.grow
  { ss with capacity := cap,
            items := ss.items ++ List.replicate ss.grow none,
            grow := cap / 4 + 1 }

/-- `slice.Add`: occupy the first free slot; if there is none, grow and
write at index `size`.  (As with the store, a `size` beyond the array
length would panic in Go and is silently dropped by `List.set`; it is
unreachable through the library API.) -/
def addS (ss : Sparse α) (x : α) : Sparse α :=
  match ss.items.findIdx? (fun o => o.isNone) with
  | some i => { ss with items := ss.items.set i (some x), size := ss.size + 1 }
  | none =>
      let g := ss.growCap
      { g with items := g.items.set ss.size (some x), size := ss.size + 1 }

/-- `slice.Clear`: free every slot (the Go loop runs over `i < capacity`;
the library maintains `capacity = len(items)`, under which it covers the
whole array as the model does) and zero the size. -/
def clearS (ss : Sparse α) : Sparse α :=
  { ss with items := ss.items.map (fun _ => none), size := 0 }

/-- `slice.Sort(less)`: `sort.Slice` reorders the whole slot array under
the lifted comparator (free slots after every occupied slot, occupied
slots by `less`).  The model realises the reordering as the occupied
values sorted under the complement relation `le` of `less` followed by
the free slots; whenever `less` is a strict weak order with singleton
equivalence classes — as it always is at the library's call sites, whose
records carry pairwise distinct registration ids — this is the unique
arrangement `sort.Slice` can produce, and free slots are
indistinguishable. -/
def sortS (ss : Sparse α) (le : α → α → Prop) [DecidableRel le] : Sparse α :=
  let sorted := ss.valids.insertionSort le
  { ss with items := sorted.map some ++
      List.replicate (ss.items.length - sorted.length) none }

/-- One iteration bound for `AssureCapacity`: after at most one stalled
step (`grow = 0`), every `growCapacity` adds at least one slot, so
`target + 1` iterations always reach the Go loop's fixpoint. -/
def assureAux (target : Nat) : Nat → Sparse α → Sparse α
  | 0, ss => ss
  | fuel + 1, ss =>
      if ss.capacity < target then assureAux target fuel ss.growCap else ss

/-- `slice.AssureCapacity(capacity)`: grow until the capacity is at least
the requested one. -/
def assureCapacityS (ss : Sparse α) (target : Nat) : Sparse α :=
  assureAux target (target + 1) ss

/-- `slice.Copy(dest)`: `dest.AssureCapacity(ss.capacity)`, then `Add`
each occupied value in iterator order. -/
def copyS (src dest : Sparse α) : Sparse α :=
  src.valids.foldl (fun d x => d.addS x) (dest.assureCapacityS src.capacity)

/-- `slice.Replace(dest)`: `dest.Clear()` then `ss.Copy(dest)`. -/
def replaceS (src dest : Sparse α) : Sparse α :=
  copyS src dest.clearS

/-- Well-formedness every library-made slice maintains: the bookkeeping
capacity is the slot-array length and the pending growth is positive. -/
def SWF (ss : Sparse α) : Prop :=
  ss.capacity = ss.items.length ∧ 1 ≤ ss.grow

/-- A packed slice: every occupied slot precedes every free slot and
`size` counts the occupied ones.  All queue-like slices of the library
(signals, to-send, registrations) stay packed because nothing is ever
removed from them individually. -/
def SPacked (ss : Sparse α) : Prop :=
  (∃ (l : List α) (k : Nat),
      ss.items = l.map some ++ List.replicate k none ∧ ss.size = l.length) ∧
    SWF ss

end Sparse

/-- A signal: an opaque payload tagged with its dispatch type
(`reflect.TypeOf(signal)` in Go). -/
structure Sig where
  stype : Nat
  payload : Int
  deriving DecidableEq, Repr

/-- The modelled effect of one system or listener invocation: an optional
user error, the new abstract world state, and the signals raised through
`World.Signal` during the invocation, in order. -/
structure SysOut (σ ε : Type) where
  err : Option ε
  st : σ
  raised : List Sig

/-- `goecs.System`: `func(world *World, delta float32) error`, modelled on
the abstract state. -/
def SystemFn (σ ε : Type) : Type := σ → Int → SysOut σ ε

/-- `goecs.Listener`: `func(world *World, signal interface{}, delta
float32) error`, modelled on the abstract state. -/
def ListenerFn (σ ε : Type) : Type := σ → Sig → Int → SysOut σ ε

/-- A prioritised registration record: `systemRegistration` and
`subscription` share this shape (`payload` is the system, or the listener
together with its subscribed signal types). -/
structure PrioRec (β : Type) where
  payload : β
  priority : Int
  id : Int

/-- `sortSystemByPriority` / `sortSubsByPriority`: by priority descending,
ties by registration id ascending. -/
def goLessPrio {β : Type} (a b : PrioRec β) : Bool :=
  if a.priority = b.priority then decide (a.id < b.id)
  else decide (a.priority > b.priority)

/-- The complement relation of `goLessPrio`, the non-strict order a
`sort.Slice`-sorted array satisfies. -/
def prioLe {β : Type} (a b : PrioRec β) : Prop :=
  goLessPrio b a = false

instance {β : Type} : DecidableRel (@prioLe β) := fun a b =>
  decEq (goLessPrio b a) false

/-- The strict execution order claimed by the spec: priority descending,
registration id ascending. -/
def prioBefore {β : Type} (a b : PrioRec β) : Prop :=
  b.priority < a.priority ∨ (a.priority = b.priority ∧ a.id < b.id)

theorem prioLe_iff {β : Type} (a b : PrioRec β) :
    prioLe a b ↔ b.priority < a.priority ∨
      (a.priority = b.priority ∧ a.id ≤ b.id) := by
  simp only [prioLe, goLessPrio]
  by_cases h : b.priority = a.priority
  · rw [if_pos h, decide_eq_false_iff_not]
    omega
  · rw [if_neg h, decide_eq_false_iff_not]
    omega


namespace Sparse

theorem filterMap_id_replicate_none {α : Type} (k : Nat) :
    (List.replicate k (none : Option α)).filterMap id = [] := by
  induction k with
  | zero => rfl
  | succ k ih => simp [List.replicate_succ, ih]

theorem valids_shape {α : Type} (l : List α) (k : Nat) :
    ((l.map some ++ List.replicate k none).filterMap id) = l := by
  rw [List.filterMap_append, filterMap_id_replicate_none]
  simp [List.filterMap_map, Function.comp]

theorem findIdx_isNone_shape {α : Type} :
    ∀ (l : List α) (k : Nat),
      ((l.map some ++ List.replicate k none).findIdx?
          (fun (o : Option α) => o.isNone)) =
        if k = 0 then none else some l.length := by
  intro l
  induction l with
  | nil =>
      intro k
      cases k with
      | zero => rfl
      | succ k => simp [List.replicate_succ, List.findIdx?_cons]
  | cons a l ih =>
      intro k
      rw [List.map_cons, List.cons_append, List.findIdx?_cons,
        if_neg (by simp), List.findIdx?_succ, ih k]
      cases k with
      | zero => simp
      | succ k => simp

theorem set_shape_succ {α : Type} (l : List α) (k : Nat) (x : α) :
    (l.map some ++ List.replicate (k + 1) (none : Option α)).set l.length
        (some x) =
      (l ++ [x]).map some ++ List.replicate k none := by
  rw [List.set_append_right _ _ (by simp)]
  simp only [List.length_map, Nat.sub_self, List.replicate_succ,
    List.set_cons_zero]
  simp [List.map_append]

theorem addS_eq_of_free {α : Type} (ss : Sparse α) (x : α) (i : Nat)
    (h : ss.items.findIdx? (fun (o : Option α) => o.isNone) = some i) :
    ss.addS x = { ss with items := ss.items.set i (some x),
                          size := ss.size + 1 } := by
  simp [addS, h]

theorem addS_eq_of_full {α : Type} (ss : Sparse α) (x : α)
    (h : ss.items.findIdx? (fun (o : Option α) => o.isNone) = none) :
    ss.addS x =
      { capacity := ss.capacity + ss.grow,
        grow := (ss.capacity + ss.grow) / 4 + 1,
        items := (ss.items ++ List.replicate ss.grow none).set ss.size (some x),
        size := ss.size + 1 } := by
  simp [addS, h, growCap]

theorem packed_add {α : Type} (ss : Sparse α) (x : α) (h : SPacked ss) :
    SPacked (ss.addS x) ∧ (ss.addS x).valids = ss.valids ++ [x] := by
  obtain ⟨⟨l, k, hitems, hsize⟩, hcap, hgrow⟩ := h
  have hval : ss.valids = l := by rw [valids, hitems, valids_shape]
  cases k with
  | zero =>
      have hfind : ss.items.findIdx? (fun (o : Option α) => o.isNone) = none := by
        rw [hitems, findIdx_isNone_shape]
        simp
      have heq := addS_eq_of_full ss x hfind
      simp only [List.replicate_zero, List.append_nil] at hitems
      obtain ⟨g1, hg⟩ : ∃ g1, ss.grow = g1 + 1 := ⟨ss.grow - 1, by omega⟩
      have hset : (ss.items ++ List.replicate ss.grow none).set ss.size
          (some x) = (l ++ [x]).map some ++ List.replicate g1 none := by
        rw [hitems, hsize, hg]
        exact set_shape_succ l g1 x
      refine ⟨⟨⟨l ++ [x], g1, ?_, ?_⟩, ?_, ?_⟩, ?_⟩
      · rw [heq]
        exact hset
      · rw [heq]
        simp [hsize]
      · rw [heq]
        simp only [List.length_set, List.length_append, List.length_replicate]
        rw [hcap]
      · rw [heq]
        simp only []
        omega
      · rw [heq, valids]
        simp only []
        rw [hset, valids_shape, hval]
  | succ k =>
      have hfind : ss.items.findIdx? (fun (o : Option α) => o.isNone) =
          some l.length := by
        rw [hitems, findIdx_isNone_shape]
        simp
      have heq := addS_eq_of_free ss x l.length hfind
      have hset : ss.items.set l.length (some x) =
          (l ++ [x]).map some ++ List.replicate k none := by
        rw [hitems]
        exact set_shape_succ l k x
      refine ⟨⟨⟨l ++ [x], k, ?_, ?_⟩, ?_, ?_⟩, ?_⟩
      · rw [heq]
        exact hset
      · rw [heq]
        simp [hsize]
      · rw [heq]
        simpa using hcap
      · rw [heq]
        simpa using hgrow
      · rw [heq, valids]
        simp only []
        rw [hset, valids_shape, hval]

theorem packed_clear {α : Type} (ss : Sparse α) (h : SWF ss) :
    SPacked ss.clearS ∧ ss.clearS.valids = [] := by
  obtain ⟨hcap, hgrow⟩ := h
  have hitems : ss.clearS.items = List.replicate ss.items.length none := by
    simp only [clearS]
    exact List.map_const' ss.items none
  refine ⟨⟨⟨[], ss.items.length, ?_, rfl⟩, ?_, ?_⟩, ?_⟩
  · rw [hitems]; rfl
  · simp [clearS, hcap]
  · simpa [clearS] using hgrow
  · rw [valids, hitems, filterMap_id_replicate_none]

theorem growCap_valids {α : Type} (ss : Sparse α) :
    ss.growCap.valids = ss.valids := by
  simp [growCap, valids, filterMap_id_replicate_none]

theorem swf_growCap {α : Type} (ss : Sparse α) (h : SWF ss) : SWF ss.growCap := by
  obtain ⟨hcap, hgrow⟩ := h
  constructor
  · simp [growCap, hcap]
  · simp only [growCap]
    omega

theorem packed_growCap {α : Type} (ss : Sparse α) (h : SPacked ss) :
    SPacked ss.growCap := by
  obtain ⟨⟨l, k, hitems, hsize⟩, hswf⟩ := h
  refine ⟨⟨l, k + ss.grow, ?_, ?_⟩, swf_growCap ss hswf⟩
  · simp only [growCap]
    rw [hitems, List.append_assoc, List.replicate_add]
  · simpa [growCap] using hsize

theorem packed_assureAux {α : Type} (target : Nat) :
    ∀ (fuel : Nat) (ss : Sparse α), SPacked ss →
      SPacked (assureAux target fuel ss) ∧
        (assureAux target fuel ss).valids = ss.valids := by
  intro fuel
  induction fuel with
  | zero => intro ss h; exact ⟨h, rfl⟩
  | succ fuel ih =>
      intro ss h
      rw [assureAux]
      by_cases hlt : ss.capacity < target
      · rw [if_pos hlt]
        have := ih ss.growCap (packed_growCap ss h)
        exact ⟨this.1, by rw [this.2, growCap_valids]⟩
      · rw [if_neg hlt]
        exact ⟨h, rfl⟩

theorem packed_foldl_add {α : Type} :
    ∀ (xs : List α) (d : Sparse α), SPacked d →
      SPacked (xs.foldl (fun dd x => dd.addS x) d) ∧
        (xs.foldl (fun dd x => dd.addS x) d).valids = d.valids ++ xs := by
  intro xs
  induction xs with
  | nil => intro d h; exact ⟨h, by simp⟩
  | cons x xs ih =>
      intro d h
      have hx := packed_add d x h
      have hrec := ih (d.addS x) hx.1
      refine ⟨hrec.1, ?_⟩
      simp only [List.foldl_cons]
      rw [hrec.2, hx.2]
      simp

theorem replace_valids {α : Type} (src dest : Sparse α) (h : SWF dest) :
    SPacked (replaceS src dest) ∧ (replaceS src dest).valids = src.valids := by
  have hc := packed_clear dest h
  have ha := packed_assureAux src.capacity (src.capacity + 1) dest.clearS hc.1
  have hf := packed_foldl_add src.valids
    (dest.clearS.assureCapacityS src.capacity) ha.1
  refine ⟨hf.1, ?_⟩
  rw [replaceS, copyS, hf.2]
  rw [show dest.clearS.assureCapacityS src.capacity =
    assureAux src.capacity (src.capacity + 1) dest.clearS from rfl]
  rw [ha.2, hc.2]
  rfl

theorem packed_sortS {α : Type} (ss : Sparse α) (le : α → α → Prop)
    [DecidableRel le] (h : SPacked ss) :
    SPacked (ss.sortS le) ∧
      (ss.sortS le).valids = ss.valids.insertionSort le := by
  obtain ⟨⟨l, k, hitems, hsize⟩, hcap, hgrow⟩ := h
  have hval : ss.valids = l := by rw [valids, hitems, valids_shape]
  have hlen : (ss.valids.insertionSort le).length = l.length := by
    rw [List.length_insertionSort, hval]
  have hlitems : ss.items.length = l.length + k := by simp [hitems]
  refine ⟨⟨⟨ss.valids.insertionSort le,
      ss.items.length - (ss.valids.insertionSort le).length, rfl, ?_⟩,
        ?_, ?_⟩, ?_⟩
  · simp only [sortS]
    rw [hsize, hlen]
  · simp only [sortS, List.length_append, List.length_map,
      List.length_replicate]
    rw [hcap]
    rw [hlen, hlitems]
    omega
  · simpa [sortS] using hgrow
  · simp only [sortS, valids]
    rw [valids_shape]

end Sparse

/-- `system.go`: the `Systems` scheduler — a sparse slice of
`systemRegistration` records plus the monotonic registration id. -/
structure Systems (σ ε : Type) where
  registrations : Sparse (PrioRec (SystemFn σ ε))
  lastRegistrationID : Int

/-- `NewSystems(systems)`. -/
def newSystems (σ ε : Type) (c : Nat) : Systems σ ε :=
  { registrations := Sparse.newSlice _ c, lastRegistrationID := 0 }

/-- `Systems.Register(system, priority)`: increment the id, add the
record, and re-sort by `sortSystemByPriority`. -/
def Systems.register (sys : Systems σ ε) (f : SystemFn σ ε)
    (priority : Int) : Systems σ ε :=
  let id := i64succ sys.lastRegistrationID
  { registrations :=
      (sys.registrations.addS
        { payload := f, priority := priority, id := id }).sortS prioLe,
    lastRegistrationID := id }

/-- The outcome of a scheduler pass: first error (if any), final state,
signal queue after the raised signals were added, and — as ghost
observability — the registration ids invoked, in invocation order. -/
structure SchedOut (σ ε : Type) where
  err : Option ε
  st : σ
  queue : Sparse Sig
  trace : List Int

/-- The loop body of `Systems.Update`: invoke each registration in
iterator order, threading the world state and adding each raised signal to
the incoming queue (`World.Signal` during the call); the first non-nil
error is returned at once and the remaining registrations are not
invoked. -/
def runSystemsList : List (PrioRec (SystemFn σ ε)) → σ → Sparse Sig → Int →
    SchedOut σ ε
  | [], w, q, _ => { err := none, st := w, queue := q, trace := [] }
  | r :: rest, w, q, d =>
      let out := r.payload w d
      let q2 := out.raised.foldl (fun qq g => qq.addS g) q
      match out.err with
      | some e => { err := some e, st := out.st, queue := q2, trace := [r.id] }
      | none =>
          let cont := runSystemsList rest out.st q2 d
          { cont with trace := r.id :: cont.trace }

/-- `Systems.Update(world, delta)`: run every registration in the sparse
slice's iterator order. -/
def Systems.updateS (sys : Systems σ ε) (w : σ) (q : Sparse Sig) (d : Int) :
    SchedOut σ ε :=
  runSystemsList sys.registrations.valids w q d

/-- `listener.go`: the `Subscriptions` event bus.  A subscription's
payload is the listener together with its subscribed signal types. -/
structure Subscriptions (σ ε : Type) where
  subscriptions : Sparse (PrioRec (ListenerFn σ ε × List Nat))
  lastSubscriptionID : Int
  signals : Sparse Sig
  toSend : Sparse Sig

/-- `NewSubscriptions(listeners, signals)`. -/
def newSubscriptions (σ ε : Type) (listeners signals : Nat) :
    Subscriptions σ ε :=
  { subscriptions := Sparse.newSlice _ listeners, lastSubscriptionID := 0,
    signals := Sparse.newSlice _ signals, toSend := Sparse.newSlice _ signals }

/-- `Subscriptions.Subscribe(listener, priority, signals...)`: increment
the id, add the record, and re-sort by `sortSubsByPriority`. -/
def Subscriptions.subscribe (subs : Subscriptions σ ε) (lis : ListenerFn σ ε)
    (priority : Int) (stypes : List Nat) : Subscriptions σ ε :=
  let id := i64succ subs.lastSubscriptionID
  { subs with
    subscriptions :=
      (subs.subscriptions.addS
        { payload := (lis, stypes), priority := priority, id := id }).sortS
        prioLe,
    lastSubscriptionID := id }

/-- `Subscriptions.Signal(signal)`: append to the incoming queue, no
synchronous dispatch. -/
def Subscriptions.signalS (subs : Subscriptions σ ε) (g : Sig) :
    Subscriptions σ ε :=
  { subs with signals := subs.signals.addS g }

/-- The inner loop of `Subscriptions.process` over one subscription's
signal types: stop at the first type equal to the signal's type (the
`break`), so a duplicated type cannot cause a second invocation. -/
def matchesType : List Nat → Nat → Bool
  | [], _ => false
  | t :: ts, st => if t = st then true else matchesType ts st

/-- The outcome of processing one signal (or of a whole dispatch pass):
first error, final state, incoming queue after raised signals, the ghost
trace of listener invocations `(subscription id, signal)`, and the ghost
concatenation of all signals raised during it. -/
structure BusOut (σ ε : Type) where
  err : Option ε
  st : σ
  queue : Sparse Sig
  trace : List (Int × Sig)
  raisedAll : List Sig

/-- `Subscriptions.process(world, signal, delta)`: walk the subscriptions
in iterator order; for each whose type list matches the signal's type,
invoke the listener once, add its raised signals to the incoming queue,
and abort on the first error. -/
def processList : List (PrioRec (ListenerFn σ ε × List Nat)) → σ → Sig →
    Sparse Sig → Int → BusOut σ ε
  | [], w, _, q, _ =>
      { err := none, st := w, queue := q, trace := [], raisedAll := [] }
  | sub :: rest, w, g, q, d =>
      if matchesType sub.payload.2 g.stype then
        let out := sub.payload.1 w g d
        let q2 := out.raised.foldl (fun qq x => qq.addS x) q
        match out.err with
        | some e =>
            { err := some e, st := out.st, queue := q2,
              trace := [(sub.id, g)], raisedAll := out.raised }
        | none =>
            let cont := processList rest out.st g q2 d
            { cont with trace := (sub.id, g) :: cont.trace,
                        raisedAll := out.raised ++ cont.raisedAll }
      else processList rest w g q d

/-- The loop of `Subscriptions.Update` over the to-send buffer: process
each signal of the frozen batch in order, aborting on the first error. -/
def deliverList (subsL : List (PrioRec (ListenerFn σ ε × List Nat))) :
    List Sig → σ → Sparse Sig → Int → BusOut σ ε
  | [], w, q, _ =>
      { err := none, st := w, queue := q, trace := [], raisedAll := [] }
  | g :: gs, w, q, d =>
      let p := processList subsL w g q d
      match p.err with
      | some e =>
          { err := some e, st := p.st, queue := p.queue, trace := p.trace,
            raisedAll := p.raisedAll }
      | none =>
          let cont := deliverList subsL gs p.st p.queue d
          { cont with trace := p.trace ++ cont.trace,
                      raisedAll := p.raisedAll ++ cont.raisedAll }

/-- The outcome of one `Subscriptions.Update` call. -/
structure UpdOut (σ ε : Type) where
  err : Option ε
  st : σ
  subs : Subscriptions σ ε
  trace : List (Int × Sig)
  raisedAll : List Sig

/-- `Subscriptions.Update(world, delta)`: no-op when the incoming queue is
empty; otherwise `Replace` the to-send buffer with the incoming queue
(clearing the buffer first), clear the incoming queue, deliver the frozen
batch, and clear the to-send buffer only on full success — on a listener
error the call returns at once with the to-send buffer still holding the
batch. -/
def Subscriptions.updateS (subs : Subscriptions σ ε) (w : σ) (d : Int) :
    UpdOut σ ε :=
  if subs.signals.size = 0 then
    { err := none, st := w, subs := subs, trace := [], raisedAll := [] }
  else
    let ts := subs.signals.replaceS subs.toSend
    let sg := subs.signals.clearS
    let out := deliverList subs.subscriptions.valids ts.valids w sg d
    match out.err with
    | some e =>
        { err := some e, st := out.st,
          subs := { subs with signals := out.queue, toSend := ts },
          trace := out.trace, raisedAll := out.raisedAll }
    | none =>
        { err := none, st := out.st,
          subs := { subs with signals := out.queue, toSend := ts.clearS },
          trace := out.trace, raisedAll := out.raisedAll }

/-- `world.go`: the `World` is the entity store (absorbed into the
abstract state `σ` together with the resources), the scheduler and the
event bus. -/
structure GoWorld (σ ε : Type) where
  st : σ
  systems : Systems σ ε
  subscriptions : Subscriptions σ ε

/-- `World.Update(delta)`: run the systems; only if they all succeeded,
run the dispatch pass of the subscriptions; return the first error of
either phase. -/
def GoWorld.updateW (world : GoWorld σ ε) (d : Int) :
    Option ε × GoWorld σ ε :=
  let s := world.systems.updateS world.st world.subscriptions.signals d
  let world1 : GoWorld σ ε :=
    { st := s.st, systems := world.systems,
      subscriptions := { world.subscriptions with signals := s.queue } }
  match s.err with
  | some e => (some e, world1)
  | none =>
      let b := world1.subscriptions.updateS world1.st d
      (b.err, { st := b.st, systems := world1.systems, subscriptions := b.subs })

/-- `World.Signal(signal)`. -/
def GoWorld.signalW (world : GoWorld σ ε) (g : Sig) : GoWorld σ ε :=
  { world with subscriptions := world.subscriptions.signalS g }

instance {β : Type} : IsTotal (PrioRec β) prioLe :=
  ⟨fun a b => by rw [prioLe_iff, prioLe_iff]; omega⟩

instance {β : Type} : IsTrans (PrioRec β) prioLe :=
  ⟨fun a b c hab hbc => by
    rw [prioLe_iff] at hab hbc ⊢
    omega⟩

theorem i64succ_of_lt (x : Int) (h : x + 1 < int63) : i64succ x = x + 1 := by
  rw [i64succ, if_pos h]

/-- One registration step as the container sees it: mint the next id, add
the record, re-sort (shared shape of `Systems.Register` and
`Subscriptions.Subscribe`). -/
def regStep {β : Type} (s : Sparse (PrioRec β) × Int) (b : β) (p : Int) :
    Sparse (PrioRec β) × Int :=
  ((s.1.addS { payload := b, priority := p, id := i64succ s.2 }).sortS prioLe,
    i64succ s.2)

/-- The registration container after a whole history of `(behavior,
priority)` registrations against a fresh slice of capacity `cap`. -/
def regFold {β : Type} (cap : Nat) (hist : List (β × Int)) :
    Sparse (PrioRec β) × Int :=
  hist.foldl (fun s h => regStep s h.1 h.2) (Sparse.newSlice _ cap, 0)

/-- The records a history denotes: registration ids are minted in call
order starting after `n`. -/
def tagFrom {β : Type} (n : Nat) : List (β × Int) → List (PrioRec β)
  | [] => []
  | (b, p) :: rest =>
      { payload := b, priority := p, id := ((n + 1 : Nat) : Int) } ::
        tagFrom (n + 1) rest

theorem tagFrom_append {β : Type} (x : β × Int) :
    ∀ (h1 : List (β × Int)) (n : Nat),
      tagFrom n (h1 ++ [x]) =
        tagFrom n h1 ++
          [{ payload := x.1, priority := x.2,
             id := ((n + h1.length + 1 : Nat) : Int) }] := by
  intro h1
  induction h1 with
  | nil => intro n; simp [tagFrom]
  | cons y h1 ih =>
      intro n
      obtain ⟨b, p⟩ := y
      have step : tagFrom n (((b, p) :: h1) ++ [x]) =
          { payload := b, priority := p, id := ((n + 1 : Nat) : Int) } ::
            tagFrom (n + 1) (h1 ++ [x]) := rfl
      rw [step, ih (n + 1)]
      have hn : n + 1 + h1.length + 1 = n + ((b, p) :: h1).length + 1 := by
        simp only [List.length_cons]
        omega
      rw [hn]
      rfl

theorem tagFrom_ids {β : Type} :
    ∀ (hist : List (β × Int)) (n : Nat),
      (tagFrom n hist).map PrioRec.id =
        (List.range' (n + 1) hist.length).map (Nat.cast : Nat → Int) := by
  intro hist
  induction hist with
  | nil => intro n; rfl
  | cons y hist ih =>
      intro n
      obtain ⟨b, p⟩ := y
      show ((n + 1 : Nat) : Int) :: (tagFrom (n + 1) hist).map PrioRec.id = _
      rw [List.length_cons, List.range'_succ, List.map_cons, ih (n + 1)]

theorem tagFrom_ids_nodup {β : Type} (hist : List (β × Int)) (n : Nat) :
    ((tagFrom n hist).map PrioRec.id).Nodup := by
  rw [tagFrom_ids]
  refine List.Nodup.map (fun a b hab => by exact_mod_cast hab) ?_
  exact (pairwise_lt_range1 _ _).imp (fun h => Nat.ne_of_lt h)

/-- The registration invariant after any history: the slice stays packed,
the id counter equals the number of registrations, and the occupied
records are exactly the tagged history, sorted by the scheduling order. -/
theorem regFold_props {β : Type} (cap : Nat) (hcap : 1 ≤ cap) :
    ∀ (hist : List (β × Int)), (hist.length : Int) < int63 →
      Sparse.SPacked (regFold cap hist).1 ∧
        (regFold cap hist).2 = (hist.length : Int) ∧
        ((regFold cap hist).1.valids).Perm (tagFrom 0 hist) ∧
        ((regFold cap hist).1.valids).Sorted prioLe := by
  intro hist
  induction hist using List.reverseRecOn with
  | nil =>
      intro _
      refine ⟨⟨⟨[], cap, rfl, rfl⟩, ?_, ?_⟩, rfl, ?_, ?_⟩
      · show cap = (List.replicate cap (none : Option (PrioRec β))).length
        simp
      · show 1 ≤ cap
        exact hcap
      · show ((List.replicate cap (none : Option (PrioRec β))).filterMap
          id).Perm (tagFrom 0 [])
        rw [Sparse.filterMap_id_replicate_none]
        exact List.Perm.refl _
      · show List.Sorted prioLe
          ((List.replicate cap (none : Option (PrioRec β))).filterMap id)
        rw [Sparse.filterMap_id_replicate_none]
        exact List.sorted_nil
  | append_singleton hist x ih =>
      intro hlen
      have hlenx : ((hist ++ [x]).length : Int) = (hist.length : Int) + 1 := by
        simp
      have hlen' : (hist.length : Int) < int63 := by
        rw [hlenx] at hlen
        omega
      obtain ⟨hpacked, hcnt, hperm, _⟩ := ih hlen'
      have hstep : regFold cap (hist ++ [x]) =
          regStep (regFold cap hist) x.1 x.2 := by
        rw [regFold, List.foldl_append]
        rfl
      have hid : i64succ (regFold cap hist).2 =
          ((hist.length + 1 : Nat) : Int) := by
        rw [hcnt, i64succ_of_lt]
        · push_cast
          ring
        · rw [hlenx] at hlen
          omega
      have hadd := Sparse.packed_add (regFold cap hist).1
        { payload := x.1, priority := x.2, id := i64succ (regFold cap hist).2 }
        hpacked
      have hsort := Sparse.packed_sortS
        ((regFold cap hist).1.addS
          { payload := x.1, priority := x.2,
            id := i64succ (regFold cap hist).2 })
        prioLe hadd.1
      have hstep1 : (regStep (regFold cap hist) x.1 x.2).1 =
          ((regFold cap hist).1.addS
            { payload := x.1, priority := x.2,
              id := i64succ (regFold cap hist).2 }).sortS prioLe := rfl
      refine ⟨?_, ?_, ?_, ?_⟩
      · rw [hstep, hstep1]
        exact hsort.1
      · rw [hstep]
        show i64succ (regFold cap hist).2 = _
        rw [hid, hlenx]
        push_cast
        ring
      · rw [hstep, hstep1, hsort.2]
        refine (List.perm_insertionSort prioLe _).trans ?_
        rw [hadd.2, tagFrom_append, hid]
        refine List.Perm.append hperm ?_
        simp
      · rw [hstep, hstep1, hsort.2]
        exact List.sorted_insertionSort prioLe _

theorem sorted_ids_pairwise_before {β : Type} (l : List (PrioRec β))
    (hsorted : l.Sorted prioLe) (hids : (l.map PrioRec.id).Nodup) :
    l.Pairwise prioBefore := by
  have hne : l.Pairwise (fun a b => a.id ≠ b.id) := (List.pairwise_map).mp hids
  have := List.Pairwise.and hsorted hne
  refine this.imp ?_
  intro a b hab
  obtain ⟨hle, hneq⟩ := hab
  rw [prioLe_iff] at hle
  rw [prioBefore]
  rcases hle with h1 | ⟨h2, h3⟩
  · exact Or.inl h1
  · exact Or.inr ⟨h2, by omega⟩

/-- A whole registration history against a fresh scheduler. -/
def registerAll (σ ε : Type) (cap : Nat)
    (hist : List (SystemFn σ ε × Int)) : Systems σ ε :=
  hist.foldl (fun s h => s.register h.1 h.2) (newSystems σ ε cap)

/-- A whole subscription history against a fresh event bus. -/
def subscribeAll (σ ε : Type) (listeners signals : Nat)
    (hist : List ((ListenerFn σ ε × List Nat) × Int)) : Subscriptions σ ε :=
  hist.foldl (fun s h => s.subscribe h.1.1 h.2 h.1.2)
    (newSubscriptions σ ε listeners signals)

theorem foldreg_eq {σ ε : Type} :
    ∀ (hist : List (SystemFn σ ε × Int)) (sys : Systems σ ε),
      hist.foldl (fun s h => s.register h.1 h.2) sys =
        { registrations := (hist.foldl (fun s h => regStep s h.1 h.2)
            (sys.registrations, sys.lastRegistrationID)).1,
          lastRegistrationID := (hist.foldl (fun s h => regStep s h.1 h.2)
            (sys.registrations, sys.lastRegistrationID)).2 } := by
  intro hist
  induction hist with
  | nil => intro sys; rfl
  | cons h t ih =>
      intro sys
      simp only [List.foldl_cons]
      rw [ih (sys.register h.1 h.2)]
      rfl

theorem foldsub_eq {σ ε : Type} :
    ∀ (hist : List ((ListenerFn σ ε × List Nat) × Int))
      (subs : Subscriptions σ ε),
      hist.foldl (fun s h => s.subscribe h.1.1 h.2 h.1.2) subs =
        { subscriptions := (hist.foldl (fun s h => regStep s h.1 h.2)
            (subs.subscriptions, subs.lastSubscriptionID)).1,
          lastSubscriptionID := (hist.foldl (fun s h => regStep s h.1 h.2)
            (subs.subscriptions, subs.lastSubscriptionID)).2,
          signals := subs.signals,
          toSend := subs.toSend } := by
  intro hist
  induction hist with
  | nil => intro subs; rfl
  | cons h t ih =>
      intro subs
      simp only [List.foldl_cons]
      rw [ih (subs.subscribe h.1.1 h.2 h.1.2)]
      rfl

theorem registerAll_regs {σ ε : Type} (cap : Nat)
    (hist : List (SystemFn σ ε × Int)) :
    (registerAll σ ε cap hist).registrations = (regFold cap hist).1 := by
  rw [registerAll, foldreg_eq]
  rfl

theorem subscribeAll_subs {σ ε : Type} (listeners signals : Nat)
    (hist : List ((ListenerFn σ ε × List Nat) × Int)) :
    (subscribeAll σ ε listeners signals hist).subscriptions =
      (regFold listeners hist).1 := by
  rw [subscribeAll, foldsub_eq]
  rfl

/-- The execution order invariant of a scheduler built by a registration
history: its occupied records are a permutation of the tagged history and
pairwise in the strict order (priority descending, id ascending). -/
theorem systemsExec_order {σ ε : Type} (cap : Nat)
    (hist : List (SystemFn σ ε × Int)) (hcap : 1 ≤ cap)
    (hlen : (hist.length : Int) < int63) :
    ((registerAll σ ε cap hist).registrations.valids).Perm (tagFrom 0 hist) ∧
      ((registerAll σ ε cap hist).registrations.valids).Pairwise prioBefore := by
  obtain ⟨_, _, hperm, hsorted⟩ := regFold_props cap hcap hist hlen
  rw [registerAll_regs]
  refine ⟨hperm, ?_⟩
  refine sorted_ids_pairwise_before _ hsorted ?_
  rw [(hperm.map PrioRec.id).nodup_iff]
  exact tagFrom_ids_nodup hist 0

/-- The delivery order invariant of an event bus built by a subscription
history. -/
theorem subsExec_order {σ ε : Type} (listeners signals : Nat)
    (hist : List ((ListenerFn σ ε × List Nat) × Int)) (hcap : 1 ≤ listeners)
    (hlen : (hist.length : Int) < int63) :
    ((subscribeAll σ ε listeners signals hist).subscriptions.valids).Perm
        (tagFrom 0 hist) ∧
      ((subscribeAll σ ε listeners signals hist).subscriptions.valids).Pairwise
        prioBefore := by
  obtain ⟨_, _, hperm, hsorted⟩ := regFold_props listeners hcap hist hlen
  rw [subscribeAll_subs]
  refine ⟨hperm, ?_⟩
  refine sorted_ids_pairwise_before _ hsorted ?_
  rw [(hperm.map PrioRec.id).nodup_iff]
  exact tagFrom_ids_nodup hist 0

/-- A logging system for concrete scheduling scenarios: appends its mark
to the state, raises nothing, never fails. -/
def logSys (m : Nat) : SystemFn (List Nat) Unit :=
  fun w _ => { err := none, st := w ++ [m], raised := [] }

/-- C3.  For schedulers and event buses alike, the execution/delivery
order of a registration history is the total order (priority descending,
registration id ascending): the occupied records are exactly the history
(a permutation of its tagged form, whose ids are the call order) and
pairwise strictly ordered by `prioBefore` — so distinct priorities run
higher-first and equal priorities run in FIFO registration order.  In
particular, with A(priority 0) registered before B(priority 100), a
scheduler `Update` executes B before A (log `[1, 0]`); with C(priority 0)
registered after A, it executes A before C (log `[0, 2]`). -/
theorem claim3_scheduling_order {σ ε : Type} (capS listeners signals : Nat)
    (histS : List (SystemFn σ ε × Int))
    (histL : List ((ListenerFn σ ε × List Nat) × Int))
    (hcapS : 1 ≤ capS) (hcapL : 1 ≤ listeners)
    (hlenS : (histS.length : Int) < int63)
    (hlenL : (histL.length : Int) < int63) :
    ((registerAll σ ε capS histS).registrations.valids).Perm
        (tagFrom 0 histS) ∧
      ((registerAll σ ε capS histS).registrations.valids).Pairwise
        prioBefore ∧
      ((subscribeAll σ ε listeners signals histL).subscriptions.valids).Perm
        (tagFrom 0 histL) ∧
      ((subscribeAll σ ε listeners signals
          histL).subscriptions.valids).Pairwise prioBefore ∧
      ((registerAll (List Nat) Unit 2
          [(logSys 0, 0), (logSys 1, 100)]).updateS []
          (Sparse.newSlice Sig 1) 0).st = [1, 0] ∧
      ((registerAll (List Nat) Unit 2
          [(logSys 0, 0), (logSys 2, 0)]).updateS []
          (Sparse.newSlice Sig 1) 0).st = [0, 2] := by
  obtain ⟨hp1, hp2⟩ := systemsExec_order capS histS hcapS hlenS
  obtain ⟨hq1, hq2⟩ := subsExec_order listeners signals histL hcapL hlenL
  exact ⟨hp1, hp2, hq1, hq2, by decide, by decide⟩

/-- A logging listener for concrete scenarios: appends the signal's type
mark to the state, raises nothing, never fails. -/
def logLis : ListenerFn (List Nat) Unit :=
  fun w g _ => { err := none, st := w ++ [g.stype], raised := [] }

/-- Witness for C3 at a concrete history of two systems and one
listener subscription. -/
theorem claim3_scheduling_order_witness :
    ((registerAll (List Nat) Unit 2
        [(logSys 0, 0), (logSys 1, 100)]).registrations.valids).Perm
        (tagFrom 0 [(logSys 0, 0), (logSys 1, 100)]) ∧
      ((registerAll (List Nat) Unit 2
          [(logSys 0, 0), (logSys 1, 100)]).registrations.valids).Pairwise
        prioBefore ∧
      ((subscribeAll (List Nat) Unit 2 2
          [((logLis, [7]), 0)]).subscriptions.valids).Perm
        (tagFrom 0 [((logLis, [7]), 0)]) ∧
      ((subscribeAll (List Nat) Unit 2 2
          [((logLis, [7]), 0)]).subscriptions.valids).Pairwise prioBefore ∧
      ((registerAll (List Nat) Unit 2
          [(logSys 0, 0), (logSys 1, 100)]).updateS []
          (Sparse.newSlice Sig 1) 0).st = [1, 0] ∧
      ((registerAll (List Nat) Unit 2
          [(logSys 0, 0), (logSys 2, 0)]).updateS []
          (Sparse.newSlice Sig 1) 0).st = [0, 2] :=
  claim3_scheduling_order 2 2 2 [(logSys 0, 0), (logSys 1, 100)]
    [((logLis, [7]), 0)] (by decide) (by decide) (by decide) (by decide)

theorem runSystemsList_append {σ ε : Type} :
    ∀ (l1 l2 : List (PrioRec (SystemFn σ ε))) (w : σ) (q : Sparse Sig)
      (d : Int), (runSystemsList l1 w q d).err = none →
      runSystemsList (l1 ++ l2) w q d =
        { err := (runSystemsList l2 (runSystemsList l1 w q d).st
            (runSystemsList l1 w q d).queue d).err,
          st := (runSystemsList l2 (runSystemsList l1 w q d).st
            (runSystemsList l1 w q d).queue d).st,
          queue := (runSystemsList l2 (runSystemsList l1 w q d).st
            (runSystemsList l1 w q d).queue d).queue,
          trace := (runSystemsList l1 w q d).trace ++
            (runSystemsList l2 (runSystemsList l1 w q d).st
              (runSystemsList l1 w q d).queue d).trace } := by
  intro l1
  induction l1 with
  | nil => intro l2 w q d _; simp [runSystemsList]
  | cons r l1 ih =>
      intro l2 w q d herr
      cases ho : (r.payload w d).err with
      | some e =>
          rw [show runSystemsList (r :: l1) w q d =
            { err := some e, st := (r.payload w d).st,
              queue := (r.payload w d).raised.foldl
                (fun qq g => qq.addS g) q,
              trace := [r.id] } from by simp [runSystemsList, ho]] at herr
          simp at herr
      | none =>
          have hcons : ∀ (L : List (PrioRec (SystemFn σ ε))),
              runSystemsList (r :: L) w q d =
                { runSystemsList L (r.payload w d).st
                    ((r.payload w d).raised.foldl (fun qq g => qq.addS g) q)
                    d with
                  trace := r.id :: (runSystemsList L (r.payload w d).st
                    ((r.payload w d).raised.foldl (fun qq g => qq.addS g) q)
                    d).trace } := by
            intro L
            simp [runSystemsList, ho]
          rw [hcons l1] at herr
          simp only [List.cons_append]
          rw [hcons (l1 ++ l2), ih l2 _ _ d herr, hcons l1]
          simp

theorem runSystemsList_failfast {σ ε : Type}
    (l1 l2 : List (PrioRec (SystemFn σ ε))) (r : PrioRec (SystemFn σ ε))
    (w : σ) (q : Sparse Sig) (d : Int) (e : ε)
    (h1 : (runSystemsList l1 w q d).err = none)
    (h2 : (r.payload (runSystemsList l1 w q d).st d).err = some e) :
    runSystemsList (l1 ++ r :: l2) w q d =
      { err := some e,
        st := (r.payload (runSystemsList l1 w q d).st d).st,
        queue := (r.payload (runSystemsList l1 w q d).st d).raised.foldl
          (fun qq g => qq.addS g) (runSystemsList l1 w q d).queue,
        trace := (runSystemsList l1 w q d).trace ++ [r.id] } := by
  rw [runSystemsList_append l1 (r :: l2) w q d h1]
  simp [runSystemsList, h2]

/-- C2.  A scheduler `Update` invokes the registered systems in the order
(priority descending, registration id ascending); the first system that
returns a non-nil error aborts the remaining systems of that call — the
result does not depend on what follows the failing record — and that same
error value is returned unchanged, while the states mutated by the systems
that already ran (and by the failing one) are kept, with no rollback.
`World.Update` runs the signal-dispatch phase only when the system phase
returned nil, and propagates the first error of either phase. -/
theorem claim2_failfast_error_propagation {σ ε : Type} (cap : Nat)
    (hist : List (SystemFn σ ε × Int))
    (l1 l2 : List (PrioRec (SystemFn σ ε))) (r : PrioRec (SystemFn σ ε))
    (w : σ) (q : Sparse Sig) (d : Int) (e : ε) (world : GoWorld σ ε)
    (hcap : 1 ≤ cap) (hlen : (hist.length : Int) < int63) :
    ((registerAll σ ε cap hist).registrations.valids).Perm
        (tagFrom 0 hist) ∧
      ((registerAll σ ε cap hist).registrations.valids).Pairwise
        prioBefore ∧
      ((runSystemsList l1 w q d).err = none →
        (r.payload (runSystemsList l1 w q d).st d).err = some e →
        runSystemsList (l1 ++ r :: l2) w q d =
          { err := some e,
            st := (r.payload (runSystemsList l1 w q d).st d).st,
            queue := (r.payload (runSystemsList l1 w q d).st d).raised.foldl
              (fun qq g => qq.addS g) (runSystemsList l1 w q d).queue,
            trace := (runSystemsList l1 w q d).trace ++ [r.id] }) ∧
      ((world.systems.updateS world.st world.subscriptions.signals d).err =
          some e →
        world.updateW d =
          (some e,
            { st := (world.systems.updateS world.st
                world.subscriptions.signals d).st,
              systems := world.systems,
              subscriptions := { world.subscriptions with
                signals := (world.systems.updateS world.st
                  world.subscriptions.signals d).queue } })) ∧
      ((world.systems.updateS world.st world.subscriptions.signals d).err =
          none →
        world.updateW d =
          ((Subscriptions.updateS
              { world.subscriptions with
                signals := (world.systems.updateS world.st
                  world.subscriptions.signals d).queue }
              (world.systems.updateS world.st
                world.subscriptions.signals d).st d).err,
            { st := (Subscriptions.updateS
                { world.subscriptions with
                  signals := (world.systems.updateS world.st
                    world.subscriptions.signals d).queue }
                (world.systems.updateS world.st
                  world.subscriptions.signals d).st d).st,
              systems := world.systems,
              subscriptions := (Subscriptions.updateS
                { world.subscriptions with
                  signals := (world.systems.updateS world.st
                    world.subscriptions.signals d).queue }
                (world.systems.updateS world.st
                  world.subscriptions.signals d).st d).subs })) := by
  obtain ⟨hp1, hp2⟩ := systemsExec_order cap hist hcap hlen
  refine ⟨hp1, hp2, ?_, ?_, ?_⟩
  · intro h1 h2
    exact runSystemsList_failfast l1 l2 r w q d e h1 h2
  · intro herr
    simp [GoWorld.updateW, herr]
  · intro herr
    simp [GoWorld.updateW, herr]

/-- A logging system over `Nat` errors. -/
def natLogSys (m : Nat) : SystemFn (List Nat) Nat :=
  fun w _ => { err := none, st := w ++ [m], raised := [] }

/-- A failing system: error 7, after recording mark 9. -/
def natErrSys : SystemFn (List Nat) Nat :=
  fun w _ => { err := some 7, st := w ++ [9], raised := [] }

/-- Concrete scheduler prefix for the C2 witness. -/
def c2l1 : List (PrioRec (SystemFn (List Nat) Nat)) :=
  [PrioRec.mk (natLogSys 0) 0 1]

/-- Concrete failing registration for the C2 witness. -/
def c2r : PrioRec (SystemFn (List Nat) Nat) := PrioRec.mk natErrSys 0 2

/-- Concrete suffix (must not run) for the C2 witness. -/
def c2l2 : List (PrioRec (SystemFn (List Nat) Nat)) :=
  [PrioRec.mk (natLogSys 3) 0 3]

/-- Concrete world whose single system fails, for the C2 witness. -/
def c2world : GoWorld (List Nat) Nat :=
  GoWorld.mk [] (registerAll (List Nat) Nat 2 [(natErrSys, 0)])
    (newSubscriptions (List Nat) Nat 1 1)

/-- The C2 witness's scheduler-prefix run. -/
def c2R1 : SchedOut (List Nat) Nat :=
  runSystemsList c2l1 [] (Sparse.newSlice Sig 1) 0

/-- The C2 witness's system phase. -/
def c2S : SchedOut (List Nat) Nat :=
  c2world.systems.updateS c2world.st c2world.subscriptions.signals 0

/-- The C2 witness's bus phase. -/
def c2B : UpdOut (List Nat) Nat :=
  Subscriptions.updateS
    { c2world.subscriptions with signals := c2S.queue } c2S.st 0

/-- Witness for C2: one succeeding system, then a failing one, then one
that must not run; plus a world whose system phase fails. -/
theorem claim2_failfast_error_propagation_witness :
    ((registerAll (List Nat) Nat 2
        [(natLogSys 0, 0)]).registrations.valids).Perm
        (tagFrom 0 [(natLogSys 0, 0)]) ∧
      ((registerAll (List Nat) Nat 2
          [(natLogSys 0, 0)]).registrations.valids).Pairwise prioBefore ∧
      (c2R1.err = none →
        (c2r.payload c2R1.st 0).err = some 7 →
        runSystemsList (c2l1 ++ c2r :: c2l2) [] (Sparse.newSlice Sig 1) 0 =
          { err := some 7, st := (c2r.payload c2R1.st 0).st,
            queue := (c2r.payload c2R1.st 0).raised.foldl
              (fun qq g => qq.addS g) c2R1.queue,
            trace := c2R1.trace ++ [c2r.id] }) ∧
      (c2S.err = some 7 →
        c2world.updateW 0 =
          (some 7, GoWorld.mk c2S.st c2world.systems
            { c2world.subscriptions with signals := c2S.queue })) ∧
      (c2S.err = none →
        c2world.updateW 0 =
          (c2B.err, GoWorld.mk c2B.st c2world.systems c2B.subs)) :=
  claim2_failfast_error_propagation 2 [(natLogSys 0, 0)] c2l1 c2l2 c2r
    [] (Sparse.newSlice Sig 1) 0 7 c2world (by decide) (by decide)

theorem packed_swf {α : Type} (ss : Sparse α) (h : Sparse.SPacked ss) :
    Sparse.SWF ss := h.2

theorem packed_size_zero {α : Type} (ss : Sparse α) (h : Sparse.SPacked ss)
    (hz : ss.size = 0) : ss.valids = [] := by
  obtain ⟨⟨l, k, hitems, hsize⟩, _⟩ := h
  have : l = [] := by
    have := hsize.symm.trans hz
    exact List.length_eq_zero.mp this
  rw [Sparse.valids, hitems, Sparse.valids_shape, this]

theorem processList_trace_signal {σ ε : Type} :
    ∀ (subsL : List (PrioRec (ListenerFn σ ε × List Nat))) (w : σ) (g : Sig)
      (q : Sparse Sig) (d : Int),
      ∀ p ∈ (processList subsL w g q d).trace, p.2 = g := by
  intro subsL
  induction subsL with
  | nil => intro w g q d p hp; simp [processList] at hp
  | cons sub rest ih =>
      intro w g q d p hp
      by_cases hm : matchesType sub.payload.2 g.stype
      · simp only [processList, if_pos hm] at hp
        cases ho : (sub.payload.1 w g d).err with
        | some e =>
            rw [ho] at hp
            simp at hp
            rw [hp]
        | none =>
            rw [ho] at hp
            simp only [List.mem_cons] at hp
            rcases hp with hp | hp
            · rw [hp]
            · exact ih _ g _ d p hp
      · simp only [processList, if_neg hm] at hp
        exact ih _ g _ d p hp

theorem processList_queue {σ ε : Type} :
    ∀ (subsL : List (PrioRec (ListenerFn σ ε × List Nat))) (w : σ) (g : Sig)
      (q : Sparse Sig) (d : Int), Sparse.SPacked q →
      Sparse.SPacked (processList subsL w g q d).queue ∧
        (processList subsL w g q d).queue.valids =
          q.valids ++ (processList subsL w g q d).raisedAll := by
  intro subsL
  induction subsL with
  | nil => intro w g q d h; exact ⟨h, by simp [processList]⟩
  | cons sub rest ih =>
      intro w g q d h
      by_cases hm : matchesType sub.payload.2 g.stype
      · have hfold := Sparse.packed_foldl_add (sub.payload.1 w g d).raised q h
        cases ho : (sub.payload.1 w g d).err with
        | some e =>
            simp only [processList, if_pos hm, ho]
            exact ⟨hfold.1, hfold.2⟩
        | none =>
            have hrec := ih (sub.payload.1 w g d).st g _ d hfold.1
            simp only [processList, if_pos hm, ho]
            refine ⟨hrec.1, ?_⟩
            rw [hrec.2, hfold.2, List.append_assoc]
      · simp only [processList, if_neg hm]
        exact ih w g q d h

theorem processList_noerr {σ ε : Type} :
    ∀ (subsL : List (PrioRec (ListenerFn σ ε × List Nat))) (w : σ) (g : Sig)
      (q : Sparse Sig) (d : Int),
      (∀ sub ∈ subsL, ∀ w2 : σ, (sub.payload.1 w2 g d).err = none) →
      (processList subsL w g q d).err = none ∧
        (processList subsL w g q d).trace =
          (subsL.filter
            (fun s => matchesType s.payload.2 g.stype)).map
            (fun s => (s.id, g)) := by
  intro subsL
  induction subsL with
  | nil => intro w g q d _; exact ⟨rfl, rfl⟩
  | cons sub rest ih =>
      intro w g q d hok
      have hsub : (sub.payload.1 w g d).err = none :=
        hok sub (List.mem_cons_self sub rest) w
      by_cases hm : matchesType sub.payload.2 g.stype
      · have hrec := ih (sub.payload.1 w g d).st g
          ((sub.payload.1 w g d).raised.foldl (fun qq x => qq.addS x) q) d
          (fun s hs w2 => hok s (List.mem_cons_of_mem sub hs) w2)
        simp only [processList, if_pos hm, hsub]
        refine ⟨hrec.1, ?_⟩
        rw [List.filter_cons]
        simp only [hm, if_pos]
        rw [List.map_cons, hrec.2]
      · have hrec := ih w g q d
          (fun s hs w2 => hok s (List.mem_cons_of_mem sub hs) w2)
        simp only [processList, if_neg hm]
        refine ⟨hrec.1, ?_⟩
        rw [List.filter_cons]
        simp only [hm, if_neg]
        exact hrec.2

theorem deliverList_trace_batch {σ ε : Type}
    (subsL : List (PrioRec (ListenerFn σ ε × List Nat))) :
    ∀ (batch : List Sig) (w : σ) (q : Sparse Sig) (d : Int),
      ∀ p ∈ (deliverList subsL batch w q d).trace, p.2 ∈ batch := by
  intro batch
  induction batch with
  | nil => intro w q d p hp; simp [deliverList] at hp
  | cons g gs ih =>
      intro w q d p hp
      cases ho : (processList subsL w g q d).err with
      | some e =>
          simp only [deliverList, ho] at hp
          have := processList_trace_signal subsL w g q d p hp
          rw [this]
          exact List.mem_cons_self g gs
      | none =>
          simp only [deliverList, ho] at hp
          rw [List.mem_append] at hp
          rcases hp with hp | hp
          · have := processList_trace_signal subsL w g q d p hp
            rw [this]
            exact List.mem_cons_self g gs
          · exact List.mem_cons_of_mem g (ih _ _ d p hp)

theorem deliverList_queue {σ ε : Type}
    (subsL : List (PrioRec (ListenerFn σ ε × List Nat))) :
    ∀ (batch : List Sig) (w : σ) (q : Sparse Sig) (d : Int),
      Sparse.SPacked q →
      Sparse.SPacked (deliverList subsL batch w q d).queue ∧
        (deliverList subsL batch w q d).queue.valids =
          q.valids ++ (deliverList subsL batch w q d).raisedAll := by
  intro batch
  induction batch with
  | nil => intro w q d h; exact ⟨h, by simp [deliverList]⟩
  | cons g gs ih =>
      intro w q d h
      have hp := processList_queue subsL w g q d h
      cases ho : (processList subsL w g q d).err with
      | some e =>
          simp only [deliverList, ho]
          exact ⟨hp.1, hp.2⟩
      | none =>
          have hrec := ih (processList subsL w g q d).st
            (processList subsL w g q d).queue d hp.1
          simp only [deliverList, ho]
          refine ⟨hrec.1, ?_⟩
          rw [hrec.2, hp.2, List.append_assoc]

theorem deliverList_noerr {σ ε : Type}
    (subsL : List (PrioRec (ListenerFn σ ε × List Nat))) :
    ∀ (batch : List Sig) (w : σ) (q : Sparse Sig) (d : Int),
      (∀ sub ∈ subsL, ∀ (w2 : σ) (g2 : Sig), (sub.payload.1 w2 g2 d).err = none) →
      (deliverList subsL batch w q d).err = none ∧
        (deliverList subsL batch w q d).trace =
          batch.flatMap (fun g =>
            (subsL.filter (fun s => matchesType s.payload.2 g.stype)).map
              (fun s => (s.id, g))) := by
  intro batch
  induction batch with
  | nil => intro w q d _; exact ⟨rfl, rfl⟩
  | cons g gs ih =>
      intro w q d hok
      have hone := processList_noerr subsL w g q d
        (fun s hs w2 => hok s hs w2 g)
      have hrec := ih (processList subsL w g q d).st
        (processList subsL w g q d).queue d hok
      simp only [deliverList, hone.1]
      refine ⟨hrec.1, ?_⟩
      rw [List.flatMap_cons, hone.2, hrec.2]

theorem updateS_trace_batch {σ ε : Type} (subs : Subscriptions σ ε) (w : σ)
    (d : Int) (hts : Sparse.SWF subs.toSend) :
    ∀ p ∈ (subs.updateS w d).trace, p.2 ∈ subs.signals.valids := by
  intro p hp
  by_cases hz : subs.signals.size = 0
  · simp [Subscriptions.updateS, hz] at hp
  · have hrep := Sparse.replace_valids subs.signals subs.toSend hts
    simp only [Subscriptions.updateS, if_neg hz] at hp
    rw [← hrep.2]
    cases ho : (deliverList subs.subscriptions.valids
        (subs.signals.replaceS subs.toSend).valids w
        subs.signals.clearS d).err with
    | some e =>
        rw [ho] at hp
        exact deliverList_trace_batch _ _ _ _ d p hp
    | none =>
        rw [ho] at hp
        exact deliverList_trace_batch _ _ _ _ d p hp

theorem updateS_signals_raised {σ ε : Type} (subs : Subscriptions σ ε)
    (w : σ) (d : Int) (hsig : Sparse.SPacked subs.signals)
    (_hts : Sparse.SWF subs.toSend) :
    (subs.updateS w d).subs.signals.valids = (subs.updateS w d).raisedAll := by
  by_cases hz : subs.signals.size = 0
  · simp only [Subscriptions.updateS, if_pos hz]
    exact packed_size_zero subs.signals hsig hz
  · have hclear := Sparse.packed_clear subs.signals (packed_swf _ hsig)
    have hq := deliverList_queue subs.subscriptions.valids
      (subs.signals.replaceS subs.toSend).valids w subs.signals.clearS d
      hclear.1
    simp only [Subscriptions.updateS, if_neg hz]
    cases ho : (deliverList subs.subscriptions.valids
        (subs.signals.replaceS subs.toSend).valids w
        subs.signals.clearS d).err with
    | some e =>
        simp only [ho]
        rw [hq.2, hclear.2]
        rfl
    | none =>
        simp only [ho]
        rw [hq.2, hclear.2]
        rfl

theorem updateS_noerr_trace {σ ε : Type} (subs : Subscriptions σ ε) (w : σ)
    (d : Int) (hsig : Sparse.SPacked subs.signals)
    (hts : Sparse.SWF subs.toSend)
    (hok : ∀ sub ∈ subs.subscriptions.valids, ∀ (w2 : σ) (g2 : Sig),
      (sub.payload.1 w2 g2 d).err = none) :
    (subs.updateS w d).trace =
      subs.signals.valids.flatMap (fun g =>
        (subs.subscriptions.valids.filter
          (fun s => matchesType s.payload.2 g.stype)).map
          (fun s => (s.id, g))) := by
  by_cases hz : subs.signals.size = 0
  · simp only [Subscriptions.updateS, if_pos hz]
    rw [packed_size_zero subs.signals hsig hz]
    rfl
  · have hrep := Sparse.replace_valids subs.signals subs.toSend hts
    have hne := deliverList_noerr subs.subscriptions.valids
      (subs.signals.replaceS subs.toSend).valids w subs.signals.clearS d hok
    simp only [Subscriptions.updateS, if_neg hz, hne.1]
    rw [hne.2, hrep.2]

theorem updateS_wf {σ ε : Type} (subs : Subscriptions σ ε) (w : σ) (d : Int)
    (hsig : Sparse.SPacked subs.signals) (hts : Sparse.SWF subs.toSend) :
    Sparse.SPacked (subs.updateS w d).subs.signals ∧
      Sparse.SWF (subs.updateS w d).subs.toSend := by
  by_cases hz : subs.signals.size = 0
  · simp only [Subscriptions.updateS, if_pos hz]
    exact ⟨hsig, hts⟩
  · have hclear := Sparse.packed_clear subs.signals (packed_swf _ hsig)
    have hrep := Sparse.replace_valids subs.signals subs.toSend hts
    have hq := deliverList_queue subs.subscriptions.valids
      (subs.signals.replaceS subs.toSend).valids w subs.signals.clearS d
      hclear.1
    simp only [Subscriptions.updateS, if_neg hz]
    cases ho : (deliverList subs.subscriptions.valids
        (subs.signals.replaceS subs.toSend).valids w
        subs.signals.clearS d).err with
    | some e =>
        simp only [ho]
        exact ⟨hq.1, packed_swf _ hrep.1⟩
    | none =>
        simp only [ho]
        refine ⟨hq.1, ?_⟩
        exact packed_swf _ (Sparse.packed_clear _ (packed_swf _ hrep.1)).1

theorem updateS_err_toSend {σ ε : Type} (subs : Subscriptions σ ε) (w : σ)
    (d : Int) (e : ε) (hts : Sparse.SWF subs.toSend)
    (herr : (subs.updateS w d).err = some e) :
    (subs.updateS w d).subs.toSend = subs.signals.replaceS subs.toSend ∧
      (subs.updateS w d).subs.toSend.valids = subs.signals.valids := by
  by_cases hz : subs.signals.size = 0
  · simp [Subscriptions.updateS, hz] at herr
  · have hrep := Sparse.replace_valids subs.signals subs.toSend hts
    simp only [Subscriptions.updateS, if_neg hz] at herr ⊢
    cases ho : (deliverList subs.subscriptions.valids
        (subs.signals.replaceS subs.toSend).valids w
        subs.signals.clearS d).err with
    | some e2 =>
        simp only [ho]
        exact ⟨by trivial, hrep.2⟩
    | none =>
        rw [ho] at herr
        simp at herr

/-- C4.  A dispatch pass (`Subscriptions.Update`) delivers only the
incoming-queue content frozen at the start of the pass: every listener
invocation of the pass carries a signal of that frozen batch; when no
listener fails, the invocation trace is exactly the frozen batch in
enqueue order, fanned out to the matching subscriptions in their stored
order; the incoming queue left behind holds exactly the signals raised
through `Signal` during the pass (for example by a listener inside its own
invocation) — and a following `Update` call draws its deliveries only from
those, so an in-pass signal is delivered on a later call, never the
current one. -/
theorem claim4_frozen_batch_dispatch {σ ε : Type} (subs : Subscriptions σ ε)
    (w : σ) (d : Int) (hsig : Sparse.SPacked subs.signals)
    (hts : Sparse.SWF subs.toSend) :
    (∀ p ∈ (subs.updateS w d).trace, p.2 ∈ subs.signals.valids) ∧
      ((∀ sub ∈ subs.subscriptions.valids, ∀ (w2 : σ) (g2 : Sig),
          (sub.payload.1 w2 g2 d).err = none) →
        (subs.updateS w d).trace =
          subs.signals.valids.flatMap (fun g =>
            (subs.subscriptions.valids.filter
              (fun s => matchesType s.payload.2 g.stype)).map
              (fun s => (s.id, g)))) ∧
      (subs.updateS w d).subs.signals.valids = (subs.updateS w d).raisedAll ∧
      (∀ p ∈ ((subs.updateS w d).subs.updateS (subs.updateS w d).st d).trace,
        p.2 ∈ (subs.updateS w d).raisedAll) := by
  have hwf := updateS_wf subs w d hsig hts
  refine ⟨updateS_trace_batch subs w d hts, ?_, ?_, ?_⟩
  · intro hok
    exact updateS_noerr_trace subs w d hsig hts hok
  · exact updateS_signals_raised subs w d hsig hts
  · intro p hp
    rw [← updateS_signals_raised subs w d hsig hts]
    exact updateS_trace_batch (subs.updateS w d).subs _ d hwf.2 p hp

/-- A relaying listener: logs the signal type and raises a type-2 signal
from inside its own invocation. -/
def relayLis : ListenerFn (List Nat) Nat :=
  fun w g _ => { err := none, st := w ++ [g.stype], raised := [Sig.mk 2 0] }

/-- The C4 witness bus: one listener subscribed to types 1 and 2, one
pending type-1 signal. -/
def relSubs0 : Subscriptions (List Nat) Nat :=
  ((newSubscriptions (List Nat) Nat 2 2).subscribe relayLis 0 [1, 2]).signalS
    (Sig.mk 1 0)

/-- Witness for C4: the pass delivers only the frozen type-1 signal; the
type-2 signal the listener raises mid-pass lands in the incoming queue and
is the only signal the next pass can deliver. -/
theorem claim4_frozen_batch_dispatch_witness :
    (∀ p ∈ (relSubs0.updateS [] 0).trace, p.2 ∈ relSubs0.signals.valids) ∧
      ((∀ sub ∈ relSubs0.subscriptions.valids, ∀ (w2 : List Nat) (g2 : Sig),
          (sub.payload.1 w2 g2 0).err = none) →
        (relSubs0.updateS [] 0).trace =
          relSubs0.signals.valids.flatMap (fun g =>
            (relSubs0.subscriptions.valids.filter
              (fun s => matchesType s.payload.2 g.stype)).map
              (fun s => (s.id, g)))) ∧
      (relSubs0.updateS [] 0).subs.signals.valids =
        (relSubs0.updateS [] 0).raisedAll ∧
      (∀ p ∈ ((relSubs0.updateS [] 0).subs.updateS
          (relSubs0.updateS [] 0).st 0).trace,
        p.2 ∈ (relSubs0.updateS [] 0).raisedAll) :=
  claim4_frozen_batch_dispatch relSubs0 [] 0
    ⟨⟨[Sig.mk 1 0], 1, rfl, rfl⟩, rfl, by decide⟩ ⟨rfl, by decide⟩

/-- C9 amended.  When a listener errors mid-pass, `Subscriptions.Update`
returns with the to-send buffer still holding the frozen batch (it is not
cleared before returning).  But the batch is not redelivered: a later
`Update` either returns at the empty-queue check, or starts by `Replace`,
which clears the to-send buffer before refilling it from the incoming
queue — so the deliveries of the next pass draw only from the signals that
were raised after the freeze, never from the stale batch. -/
theorem claim9_tosend_retained_not_redelivered {σ ε : Type}
    (subs : Subscriptions σ ε) (w : σ) (d : Int) (e : ε)
    (hsig : Sparse.SPacked subs.signals) (hts : Sparse.SWF subs.toSend) :
    ((subs.updateS w d).err = some e →
      (subs.updateS w d).subs.toSend = subs.signals.replaceS subs.toSend ∧
        (subs.updateS w d).subs.toSend.valids = subs.signals.valids) ∧
      (∀ p ∈ ((subs.updateS w d).subs.updateS (subs.updateS w d).st d).trace,
        p.2 ∈ (subs.updateS w d).raisedAll) := by
  have hwf := updateS_wf subs w d hsig hts
  constructor
  · intro herr
    exact updateS_err_toSend subs w d e hts herr
  · intro p hp
    rw [← updateS_signals_raised subs w d hsig hts]
    exact updateS_trace_batch (subs.updateS w d).subs _ d hwf.2 p hp

/-- A listener that fails on type-1 signals (error 7) and succeeds on
type-2 signals, logging every delivery. -/
def cexLis : ListenerFn (List Nat) Nat :=
  fun w g _ =>
    { err := if g.stype = 1 then some 7 else none,
      st := w ++ [g.stype], raised := [] }

/-- The C9 bus: the failing listener subscribed to types 1 and 2, one
pending type-1 signal. -/
def cexSubs0 : Subscriptions (List Nat) Nat :=
  ((newSubscriptions (List Nat) Nat 2 2).subscribe cexLis 0 [1, 2]).signalS
    (Sig.mk 1 0)

/-- Counterexample to C9's redelivery half.  The first pass errors on the
type-1 signal and leaves it in the to-send buffer; then a type-2 signal is
queued and `Update` runs again.  The claim says the old batch is
redelivered on top of the new signals — but the second pass delivers
exactly the type-2 signal (its trace types are `[2]`, the log ends
`[1, 2]`): the type-1 batch was discarded by the `Replace` that opens the
pass, redelivered never. -/
theorem claim9_batch_redelivery_counterexample :
    (cexSubs0.updateS [] 0).err = some 7 ∧
      (cexSubs0.updateS [] 0).subs.toSend.valids = [Sig.mk 1 0] ∧
      ((((cexSubs0.updateS [] 0).subs.signalS (Sig.mk 2 0)).updateS
          (cexSubs0.updateS [] 0).st 0).trace.map (fun p => p.2.stype)) =
        [2] ∧
      (((cexSubs0.updateS [] 0).subs.signalS (Sig.mk 2 0)).updateS
          (cexSubs0.updateS [] 0).st 0).st = [1, 2] := by
  refine ⟨by decide, by decide, by decide, by decide⟩

theorem processList_trace_sublist {σ ε : Type} :
    ∀ (subsL : List (PrioRec (ListenerFn σ ε × List Nat))) (w : σ) (g : Sig)
      (q : Sparse Sig) (d : Int),
      ((processList subsL w g q d).trace.map Prod.fst).Sublist
        (subsL.map PrioRec.id) := by
  intro subsL
  induction subsL with
  | nil => intro w g q d; simp [processList]
  | cons sub rest ih =>
      intro w g q d
      by_cases hm : matchesType sub.payload.2 g.stype
      · cases ho : (sub.payload.1 w g d).err with
        | some e =>
            simp only [processList, if_pos hm, ho, List.map_cons]
            exact (List.nil_sublist _).cons_cons sub.id
        | none =>
            simp only [processList, if_pos hm, ho, List.map_cons]
            exact (ih _ g _ d).cons_cons sub.id
      · simp only [processList, if_neg hm, List.map_cons]
        exact (ih w g q d).cons _

/-- C10.  In one dispatch of a signal (`Subscriptions.process`), each
subscribed listener is invoked at most once for that signal, even when the
subscription's type list names the signal's type more than once — the
inner loop over the type list breaks at the first match.  Formally: when
the stored subscription ids are distinct, the invocation trace has no
repeated subscription id, so every id occurs at most once. -/
theorem claim10_listener_invoked_at_most_once {σ ε : Type}
    (subsL : List (PrioRec (ListenerFn σ ε × List Nat))) (w : σ) (g : Sig)
    (q : Sparse Sig) (d : Int) (hids : (subsL.map PrioRec.id).Nodup) :
    ((processList subsL w g q d).trace.map Prod.fst).Nodup ∧
      (∀ sid : Int,
        ((processList subsL w g q d).trace.map Prod.fst).count sid ≤ 1) := by
  have hnd : ((processList subsL w g q d).trace.map Prod.fst).Nodup :=
    (processList_trace_sublist subsL w g q d).nodup hids
  exact ⟨hnd, fun sid => List.nodup_iff_count_le_one.mp hnd sid⟩

/-- A logging listener subscribed (in the C10 witness) with a duplicated
type in its signal list. -/
def dupLis : ListenerFn (List Nat) Nat :=
  fun w g _ => { err := none, st := w ++ [g.stype], raised := [] }

/-- Witness for C10: one subscription whose type list is `[5, 5]`,
dispatching a type-5 signal — the listener still runs only once. -/
theorem claim10_listener_invoked_at_most_once_witness :
    ((processList [PrioRec.mk (dupLis, [5, 5]) 0 1] [] (Sig.mk 5 0)
        (Sparse.newSlice Sig 1) 0).trace.map Prod.fst).Nodup ∧
      (∀ sid : Int,
        ((processList [PrioRec.mk (dupLis, [5, 5]) 0 1] [] (Sig.mk 5 0)
            (Sparse.newSlice Sig 1) 0).trace.map Prod.fst).count sid ≤ 1) :=
  claim10_listener_invoked_at_most_once [PrioRec.mk (dupLis, [5, 5]) 0 1]
    [] (Sig.mk 5 0) (Sparse.newSlice Sig 1) 0 (by decide)

/-- Witness for the amended C9, on the failing-listener bus: the errored
pass leaves the frozen type-1 batch in the to-send buffer, and the next
pass can deliver only signals raised after the freeze. -/
theorem claim9_tosend_retained_not_redelivered_witness :
    ((cexSubs0.updateS [] 0).err = some 7 →
      (cexSubs0.updateS [] 0).subs.toSend =
          cexSubs0.signals.replaceS cexSubs0.toSend ∧
        (cexSubs0.updateS [] 0).subs.toSend.valids =
          cexSubs0.signals.valids) ∧
      (∀ p ∈ ((cexSubs0.updateS [] 0).subs.updateS
          (cexSubs0.updateS [] 0).st 0).trace,
        p.2 ∈ (cexSubs0.updateS [] 0).raisedAll) :=
  claim9_tosend_retained_not_redelivered cexSubs0 [] 0 7
    ⟨⟨[Sig.mk 1 0], 1, rfl, rfl⟩, rfl, by decide⟩ ⟨rfl, by decide⟩
